import Mathlib

/-!
# Verification of `libtorrent-rs` against its specification

A shallow embedding, in Lean 4, of the parts of the `libtorrent-rs`
repository that the checked claims are about:

* `dtorrent/src/torrent_handler/status.rs` — the piece-assignment ledger
  (`AtomicTorrentStatus`): `select_piece`, `piece_downloaded`,
  `piece_aborted` and the `free`/`downloading`/`finished` counters.
* `dtorrent/src/peer/peer_message/bitfield.rs` — `Bitfield::has_piece`,
  `set_bit`, `diff`.
* `dtorrent/src/peer/handshake.rs` — `Handshake::from_bytes`.
* `dtracker/src/tracker_peer/peer.rs` and
  `dtracker/src/torrent_swarm/swarm.rs` — seeder/leecher classification and
  the swarm counters.
* `bencoder/src/bencode.rs` — the bencode codec.

Modelling conventions, used throughout:

* Machine integers are `Nat`/`Int`.  `usize` counters touched by
  `fetch_add`/`fetch_sub` wrap modulo `2^64` (Rust atomics always wrap),
  written explicitly with `% 2^64`.
* A Rust slice/`Vec<u8>` is a `List Nat` of byte values.
* Indexing that can panic in Rust (`v[i]`, an out-of-range slice index) is
  modelled with `Option`/an explicit `panic` outcome constructor: `none` /
  `.panic` is the unrecoverable failure.
* A `HashMap` is an association list whose list order stands for the map's
  (unspecified, hash-dependent) iteration order; `insert` of a present key
  replaces the value in place, lookups go through the key.  A `BTreeMap` is
  an association list kept sorted by key, which is the invariant the Rust
  type maintains.
* The RNG behind `IteratorRandom::choose` is abstracted by a `Nat` seed:
  `choose` on a nonempty candidate list returns the element at
  `seed % length` — some element of the list, picked by data the program
  does not control — and `none` exactly on the empty list.
* File I/O (`save_piece`) is abstracted by a boolean outcome parameter.
-/

namespace LibTorrentRs

/-! ## `usize` counters (`AtomicUsize::fetch_add` / `fetch_sub`, wrapping) -/

/-- The modulus of `usize` on the 64-bit targets the crate builds for. -/
def USIZE : Nat := 2 ^ 64

/-- `AtomicUsize::fetch_add(1)`: wrapping increment. -/
def usizeAdd1 (x : Nat) : Nat := (x + 1) % USIZE

/-- `AtomicUsize::fetch_sub(1)`: wrapping decrement (`0` wraps to `2^64 - 1`). -/
def usizeSub1 (x : Nat) : Nat := (x + (USIZE - 1)) % USIZE

/-! ## Bitfield (`dtorrent/src/peer/peer_message/bitfield.rs`)

A `Bitfield` is its `Vec<u8>`, i.e. a `List Nat`.  The three partial
operations return `none` where the Rust code would panic on an
out-of-bounds index. -/

/-- `Bitfield::has_piece`: reads byte `index / 8` (panicking when it is out
of bounds) and tests bit `7 - index % 8`. -/
def hasPiece (bitfield : List Nat) (index : Nat) : Option Bool :=
  match bitfield[index / 8]? with
  | none => none
  | some byte => some (decide ((byte >>> (7 - index % 8)) &&& 1 ≠ 0))

/-- `Bitfield::set_bit`: writes bit `7 - index % 8` of byte `index / 8`
(panicking when the byte index is out of bounds). `!bit` on a `u8` is
`255 ^^^ bit`. -/
def setBit (bitfield : List Nat) (index : Nat) (value : Bool) :
    Option (List Nat) :=
  match bitfield[index / 8]? with
  | none => none
  | some byte =>
    let bit := 1 <<< (7 - index % 8)
    some (bitfield.set (index / 8)
      (if value then byte ||| bit else byte &&& (255 ^^^ bit)))

/-- The indices contributed by one byte position in `Bitfield::diff`:
for `bit_index` in `0..8`, compare bit `7 - bit_index` of the two bytes and
record `index * 8 + bit_index` when they differ. -/
def diffByte (byte other index : Nat) : List Nat :=
  ((List.range 8).filter fun bitIndex =>
      decide ((byte &&& (1 <<< (7 - bitIndex)) ≠ 0) ≠
              (other &&& (1 <<< (7 - bitIndex)) ≠ 0))).map
    fun bitIndex => index * 8 + bitIndex

/-- The loop of `Bitfield::diff`: walks `self`'s bytes with their index,
reading `other.bitfield[index]` (panic — `none` — when `other` is too
short). -/
def diffAux (other : List Nat) : List Nat → Nat → Option (List Nat)
  | [], _ => some []
  | byte :: rest, index =>
    match other[index]? with
    | none => none
    | some otherByte =>
      (diffAux other rest (index + 1)).map fun tail =>
        diffByte byte otherByte index ++ tail

/-- `Bitfield::diff`. -/
def diffBitfield (self other : List Nat) : Option (List Nat) :=
  diffAux other self 0

/-! ## Piece status ledger (`dtorrent/src/torrent_handler/status.rs`) -/

/-- `PieceStatus`. -/
inductive PieceStatus where
  | Finished
  | Downloading
  | Free
  deriving DecidableEq, Repr

/-- The errors of `AtomicTorrentStatusError` reachable in this model (the
lock-poisoning cases concern `Mutex` failure, which cannot arise in the
sequential embedding). `SavePieceError` stands for
`SavePieceError(std::io::Error)`. -/
inductive ATSError where
  | InvalidPieceIndex
  | PieceWasNotDownloading
  | SavePieceError
  | PieceWasNotFinished
  deriving DecidableEq, Repr

/-- The state of `AtomicTorrentStatus` that the checked operations touch:
the piece-status map (association list in iteration order) and the three
piece counters.  Omitted fields (peer sessions, channels, config) are not
read or written by `select_piece`, `piece_downloaded`, `piece_aborted`. -/
structure TorrentStatus where
  pieces_status : List (Nat × PieceStatus)
  finished_pieces : Nat
  downloading_pieces : Nat
  free_pieces : Nat
  deriving DecidableEq, Repr

/-- `AtomicTorrentStatus::new` for a torrent with `order.length` pieces:
the Rust constructor inserts keys `0..total_pieces` (all `Free`) into a
`HashMap`; `order` is the iteration order that map ends up with, so it is
some permutation of `0..total_pieces`. Counters start at
`finished = downloading = 0`, `free = total_pieces`. -/
def statusNew (order : List Nat) : TorrentStatus :=
  { pieces_status := order.map fun i => (i, PieceStatus.Free)
    finished_pieces := 0
    downloading_pieces := 0
    free_pieces := order.length }

/-- `HashMap::get(&index)` on the piece map. -/
def lookupPiece (index : Nat) (m : List (Nat × PieceStatus)) :
    Option PieceStatus :=
  (m.find? fun p => p.1 = index).map Prod.snd

/-- `HashMap::insert(index, st)` for a key already present in the map:
the value is replaced, the iteration order is unchanged. -/
def updatePiece (index : Nat) (st : PieceStatus)
    (m : List (Nat × PieceStatus)) : List (Nat × PieceStatus) :=
  m.map fun p => if p.1 = index then (index, st) else p

/-- Count of pieces currently carrying status `st` in the map. -/
def countStatus (st : PieceStatus) (m : List (Nat × PieceStatus)) : Nat :=
  (m.filter fun p => p.2 = st).length

/-- `IteratorRandom::choose(&mut rng)`: `none` on an empty iterator, some
element of the list otherwise, the RNG abstracted by `seed`. -/
def chooseRand (seed : Nat) (l : List α) : Option α :=
  match l with
  | [] => none
  | _ :: _ => l[seed % l.length]?

/-- The `.filter(Free).find(|(index, _)| bitfield.has_piece(**index))` step
of `select_piece`, walking the map in iteration order.  `none` is a panic
propagated out of `has_piece`; `some none` is "no candidate"; `some (some i)`
is the first `Free` entry the bitfield has. -/
def findFreeInBitfield (bitfield : List Nat) :
    List (Nat × PieceStatus) → Option (Option Nat)
  | [] => some none
  | (i, st) :: rest =>
    if st = PieceStatus.Free then
      match hasPiece bitfield i with
      | none => none
      | some true => some (some i)
      | some false => findFreeInBitfield bitfield rest
    else findFreeInBitfield bitfield rest

/-- `AtomicTorrentStatus::select_piece`.  If no piece is `Free`, choose at
random among the `Downloading` entries; otherwise take the first `Free`
entry (in map iteration order) that the remote bitfield has.  Either way,
a returned index falls through to the shared update: the piece is set to
`Downloading`, `downloading_pieces` is incremented and `free_pieces`
decremented (both wrapping).  Outer `none` models a panic escaping from
`has_piece`. -/
def select_piece (seed : Nat) (bitfield : List Nat) (s : TorrentStatus) :
    Option (Option Nat × TorrentStatus) :=
  match
    if countStatus PieceStatus.Free s.pieces_status = 0 then
      some ((chooseRand seed
        (s.pieces_status.filter fun p =>
          p.2 = PieceStatus.Downloading)).map Prod.fst)
    else
      findFreeInBitfield bitfield s.pieces_status
  with
  | none => none
  | some none => some (none, s)
  | some (some index) =>
    some (some index,
      { s with
        pieces_status := updatePiece index PieceStatus.Downloading
          s.pieces_status
        downloading_pieces := usizeAdd1 s.downloading_pieces
        free_pieces := usizeSub1 s.free_pieces })

/-- `AtomicTorrentStatus::piece_downloaded`.  The piece bytes themselves and
the block-store write are abstracted: `saveOk` is whether `save_piece`
succeeds.  The state is returned alongside the result so that "unchanged on
error" is explicit. -/
def piece_downloaded (saveOk : Bool) (index : Nat) (s : TorrentStatus) :
    Except ATSError Unit × TorrentStatus :=
  match lookupPiece index s.pieces_status with
  | none => (Except.error ATSError.InvalidPieceIndex, s)
  | some st =>
    if st ≠ PieceStatus.Downloading then
      (Except.error ATSError.PieceWasNotDownloading, s)
    else if saveOk = false then
      (Except.error ATSError.SavePieceError, s)
    else
      (Except.ok (),
        { s with
          pieces_status := updatePiece index PieceStatus.Finished
            s.pieces_status
          downloading_pieces := usizeSub1 s.downloading_pieces
          finished_pieces := usizeAdd1 s.finished_pieces })

/-- `AtomicTorrentStatus::piece_aborted`. -/
def piece_aborted (index : Nat) (s : TorrentStatus) :
    Except ATSError Unit × TorrentStatus :=
  match lookupPiece index s.pieces_status with
  | none => (Except.error ATSError.InvalidPieceIndex, s)
  | some st =>
    if st ≠ PieceStatus.Downloading then
      (Except.error ATSError.PieceWasNotDownloading, s)
    else
      (Except.ok (),
        { s with
          pieces_status := updatePiece index PieceStatus.Free s.pieces_status
          downloading_pieces := usizeSub1 s.downloading_pieces
          free_pieces := usizeAdd1 s.free_pieces })

/-! ## UTF-8 validity (`String::from_utf8` success)

`Handshake::from_bytes` and the bencode decoder call `String::from_utf8`,
which succeeds exactly on byte sequences that are valid UTF-8 (well-formed
lead/continuation structure, no overlong forms, no surrogates, maximum
`U+10FFFF`). -/

/-- A UTF-8 continuation byte: `0x80..=0xBF`. -/
def utf8Cont (c : Nat) : Bool := 0x80 ≤ c && c ≤ 0xBF

/-- The width of the UTF-8 sequence introduced by lead byte `b`, `0` for a
byte that can lead no valid sequence (stray continuation bytes and the
overlong leads `C0`/`C1`, and `F5..FF`). -/
def utf8Width (b : Nat) : Nat :=
  if b < 0x80 then 1
  else if b < 0xC2 then 0
  else if b < 0xE0 then 2
  else if b < 0xF0 then 3
  else if b < 0xF5 then 4
  else 0

/-- The admissible range of the first continuation byte after lead `b`:
`E0` excludes overlong encodings, `ED` excludes surrogates, `F0` excludes
overlongs, `F4` caps at `U+10FFFF`; otherwise any continuation byte. -/
def utf8Follow1Ok (b c1 : Nat) : Bool :=
  if b = 0xE0 then 0xA0 ≤ c1 && c1 ≤ 0xBF
  else if b = 0xED then 0x80 ≤ c1 && c1 ≤ 0x9F
  else if b = 0xF0 then 0x90 ≤ c1 && c1 ≤ 0xBF
  else if b = 0xF4 then 0x80 ≤ c1 && c1 ≤ 0x8F
  else utf8Cont c1

/-- Whether a byte list is valid UTF-8 (the success condition of Rust's
`String::from_utf8`): each lead byte is followed by `width - 1`
continuation bytes in the admissible ranges. -/
def utf8Valid : List Nat → Bool
  | [] => true
  | b :: rest =>
    match utf8Width b, rest with
    | 1, r => utf8Valid r
    | 2, c1 :: r => utf8Follow1Ok b c1 && utf8Valid r
    | 3, c1 :: c2 :: r => utf8Follow1Ok b c1 && utf8Cont c2 && utf8Valid r
    | 4, c1 :: c2 :: c3 :: r =>
      utf8Follow1Ok b c1 && utf8Cont c2 && utf8Cont c3 && utf8Valid r
    | _, _ => false

/-! ## Handshake (`dtorrent/src/peer/handshake.rs`) -/

/-- The fixed protocol string `"BitTorrent protocol"`, as bytes. -/
def PSTR : List Nat :=
  [66, 105, 116, 84, 111, 114, 114, 101, 110, 116, 32,
   112, 114, 111, 116, 111, 99, 111, 108]

/-- `Handshake` (the `pstr : String` field is kept as its UTF-8 bytes). -/
structure Handshake where
  pstrlen : Nat
  pstr : List Nat
  reserved : List Nat
  info_hash : List Nat
  peer_id : List Nat
  deriving DecidableEq, Repr

/-- `FromHandshakeError`. -/
inductive FromHandshakeError where
  | InvalidHandshake
  deriving DecidableEq, Repr

/-- `Handshake::from_bytes`: requires exactly 68 bytes and `pstrlen = 19`,
decodes `bytes[1..20]` as UTF-8 into `pstr`, and slices out the remaining
fields.  (No comparison of `pstr` against the protocol string is
performed.) -/
def handshakeFromBytes (bytes : List Nat) :
    Except FromHandshakeError Handshake :=
  if bytes.length ≠ 68 then Except.error FromHandshakeError.InvalidHandshake
  else
    match bytes.head? with
    | none => Except.error FromHandshakeError.InvalidHandshake
    | some pstrlen =>
      if pstrlen ≠ 19 then Except.error FromHandshakeError.InvalidHandshake
      else
        let pstrBytes := (bytes.drop 1).take 19
        if utf8Valid pstrBytes then
          Except.ok
            { pstrlen := pstrlen
              pstr := pstrBytes
              reserved := (bytes.drop 20).take 8
              info_hash := (bytes.drop 28).take 20
              peer_id := bytes.drop 48 }
        else Except.error FromHandshakeError.InvalidHandshake

/-! ## Tracker peer (`dtracker/src/tracker_peer/`) -/

/-- `PeerEvent`. -/
inductive PeerEvent where
  | Started
  | Stopped
  | Completed
  deriving DecidableEq, Repr

/-- `PeerStatus`.  `last_seen : DateTime<Local>` is modelled as an abstract
integer timestamp. -/
structure PeerStatus where
  uploaded : Nat
  downloaded : Nat
  left : Nat
  event : Option PeerEvent
  last_seen : Int
  deriving DecidableEq, Repr

/-- `Peer` (tracker side).  The 20-byte id is a byte list; `ip`/`port`/`key`
are irrelevant to the claims but kept for shape. -/
structure TrackerPeer where
  id : List Nat
  port : Nat
  status : PeerStatus
  deriving DecidableEq, Repr

/-- `Peer::is_leecher`:
`left > 0 || (event != Some(Completed) && event != None)`. -/
def isLeecher (p : TrackerPeer) : Bool :=
  decide (p.status.left > 0) ||
    (decide (p.status.event ≠ some PeerEvent.Completed) &&
     decide (p.status.event ≠ none))

/-- `Peer::is_seeder`: `left == 0 || event == Some(Completed)`. -/
def isSeeder (p : TrackerPeer) : Bool :=
  decide (p.status.left = 0) ||
    decide (p.status.event = some PeerEvent.Completed)

/-! ## Swarm (`dtracker/src/torrent_swarm/swarm.rs`) -/

/-- `Swarm`: the peer table (`HashMap<PeerId, Peer>`, an association list
keyed by the 20-byte id) plus the two `u32` counters.  The counters only
move by `± 1` under a proven no-underflow invariant, so plain `Nat`
arithmetic coincides with `u32` in both debug and release builds. -/
structure Swarm where
  peers : List (List Nat × TrackerPeer)
  seeders : Nat
  leechers : Nat
  deriving DecidableEq, Repr

/-- `Swarm::new`. -/
def swarmNew : Swarm := { peers := [], seeders := 0, leechers := 0 }

/-- `HashMap::insert(id, peer)` returning the previous value: replace in
place when the key is present, append otherwise (the position of a fresh
key in iteration order is arbitrary; counts never depend on it). -/
def swarmInsert (id : List Nat) (p : TrackerPeer)
    (l : List (List Nat × TrackerPeer)) :
    List (List Nat × TrackerPeer) :=
  if l.any fun q => q.1 = id then
    l.map fun q => if q.1 = id then (id, p) else q
  else l ++ [(id, p)]

/-- `HashMap::get` on the peer table. -/
def swarmLookup (id : List Nat) (l : List (List Nat × TrackerPeer)) :
    Option TrackerPeer :=
  (l.find? fun q => q.1 = id).map Prod.snd

/-- The `(seeders, leechers)` pair after the `if let Some(old_peer)` block
of `Swarm::announce`: when a previous record existed, the counter of its
class is decremented. -/
def announceDecOld (old : Option TrackerPeer) (se le : Nat) : Nat × Nat :=
  match old with
  | some oldPeer =>
    if isLeecher oldPeer then (se, le - 1) else (se - 1, le)
  | none => (se, le)

/-- `Swarm::announce`: insert-or-replace by the incoming peer's id; if a
previous record existed, decrement the counter of its class, then increment
the counter of the incoming record's class (classes read off
`is_leecher`). -/
def announce (incoming : TrackerPeer) (s : Swarm) : Swarm :=
  let dec := announceDecOld (swarmLookup incoming.id s.peers)
    s.seeders s.leechers
  if isLeecher incoming then
    { peers := swarmInsert incoming.id incoming s.peers
      seeders := dec.1, leechers := dec.2 + 1 }
  else
    { peers := swarmInsert incoming.id incoming s.peers
      seeders := dec.1 + 1, leechers := dec.2 }

/-- The loop of `Swarm::remove_inactive_peers`
(`HashMap::retain`): each entry for which the expiry test holds is dropped
and the counter of its class decremented.  `expired` abstracts
`Local::now().signed_duration_since(peer.last_seen) > peer_timeout`,
indexed by the entry's key so that the per-entry clock reads are covered. -/
def retainActive (expired : List Nat → TrackerPeer → Bool) :
    List (List Nat × TrackerPeer) → Nat → Nat →
      List (List Nat × TrackerPeer) × Nat × Nat
  | [], se, le => ([], se, le)
  | (id, p) :: rest, se, le =>
    if expired id p then
      if isLeecher p then retainActive expired rest se (le - 1)
      else retainActive expired rest (se - 1) le
    else
      let (tail, se', le') := retainActive expired rest se le
      ((id, p) :: tail, se', le')

/-- `Swarm::remove_inactive_peers`. -/
def removeInactivePeers (expired : List Nat → TrackerPeer → Bool)
    (s : Swarm) : Swarm :=
  { peers := (retainActive expired s.peers s.seeders s.leechers).1
    seeders := (retainActive expired s.peers s.seeders s.leechers).2.1
    leechers := (retainActive expired s.peers s.seeders s.leechers).2.2 }

/-- A client-visible operation on a swarm (the two mutators the claim
ranges over). -/
inductive SwarmOp where
  | announceOp (p : TrackerPeer)
  | removeInactiveOp (expired : List Nat → TrackerPeer → Bool)

/-- Run one operation. -/
def swarmStep (s : Swarm) : SwarmOp → Swarm
  | SwarmOp.announceOp p => announce p s
  | SwarmOp.removeInactiveOp expired => removeInactivePeers expired s

/-- Run a sequence of operations from `Swarm::new`. -/
def swarmRun (ops : List SwarmOp) : Swarm :=
  ops.foldl swarmStep swarmNew

/-- Number of stored peers classified as leechers (`is_leecher` holds). -/
def leechersCount (l : List (List Nat × TrackerPeer)) : Nat :=
  (l.filter fun q => isLeecher q.2).length

/-- Number of stored peers classified as seeders (`is_leecher` fails —
the `else` class of `announce` and `remove_inactive_peers`). -/
def seedersCount (l : List (List Nat × TrackerPeer)) : Nat :=
  (l.filter fun q => !isLeecher q.2).length

/-- The swarm-accounting invariant: each counter equals the number of
stored peers of its class, and the peer-id keys are distinct (a `HashMap`
property). -/
def SwarmInv (s : Swarm) : Prop :=
  s.leechers = leechersCount s.peers ∧ s.seeders = seedersCount s.peers ∧
    (s.peers.map Prod.fst).Nodup

/-- A stored tracker peer with `left > 0` (a leecher). -/
def c10OldPeer : TrackerPeer :=
  { id := List.replicate 20 2, port := 1000
    status := { uploaded := 0, downloaded := 0, left := 5,
                event := none, last_seen := 0 } }

/-- A re-announce of the same peer-id with `left = 0` and no event (a
seeder). -/
def c10NewPeer : TrackerPeer :=
  { id := List.replicate 20 2, port := 1000
    status := { uploaded := 0, downloaded := 0, left := 0,
                event := none, last_seen := 5 } }

/-- A 68-byte frame with `pstrlen = 19` whose `pstr` is 19 `'A'` bytes —
not the BitTorrent protocol string. -/
def c5Input : List Nat := 19 :: (List.replicate 19 65 ++ List.replicate 48 0)

/-- A peer with `left = 0` whose last event is `Started`. -/
def c8Peer : TrackerPeer :=
  { id := List.replicate 20 1
    port := 6881
    status :=
      { uploaded := 0, downloaded := 0, left := 0,
        event := some PeerEvent.Started, last_seen := 0 } }

/-! ## Bencode (`bencoder/src/bencode.rs`)

`Bencode` values: integers are `i64` in Rust, modelled as `Int` with the
`i64` range carried by the well-formedness predicate below; the `BTreeMap`
of a dictionary is an association list sorted by byte-lexicographic key
order (the invariant `BTreeMap` maintains). -/

/-- `Bencode`. -/
inductive Bencode where
  | BNumber (n : Int)
  | BString (s : List Nat)
  | BList (l : List Bencode)
  | BDict (d : List (List Nat × Bencode))

/-- `BencodeError`. -/
inductive BencodeError where
  | InvalidBencode
  | InvalidBencodeType
  | InvalidBencodeNumber
  | InvalidBencodeString
  | InvalidBencodeList
  | InvalidBencodeDict
  deriving DecidableEq, Repr

/-- Outcome of a decoding step.  `panic` is an out-of-bounds slice index
(an unrecoverable Rust panic); `fuelOut` is an artifact of the fuel-indexed
embedding of the decoder's loops, distinct from every program outcome. -/
inductive DRes (α : Type) where
  | ok (val : α)
  | err (e : BencodeError)
  | panic
  | fuelOut

/-- Strict byte-lexicographic order on byte strings: the `Ord` instance of
Rust's `Vec<u8>` that `BTreeMap<Vec<u8>, _>` sorts by. -/
def lexLt : List Nat → List Nat → Bool
  | [], [] => false
  | [], _ :: _ => true
  | _ :: _, [] => false
  | a :: as_, b :: bs => if a < b then true else if b < a then false else lexLt as_ bs

/-- `BTreeMap::insert` on the sorted association list: place the key at its
ordered position, replacing the value if the key is present. -/
def btInsert (k : List Nat) (v : Bencode) :
    List (List Nat × Bencode) → List (List Nat × Bencode)
  | [] => [(k, v)]
  | (k', v') :: rest =>
    if lexLt k k' then (k, v) :: (k', v') :: rest
    else if k = k' then (k, v) :: rest
    else (k', v') :: btInsert k v rest

/-- The decimal digits (as ASCII bytes) of a natural number: Rust's
`to_string` for unsigned values. -/
def natToDigits (m : Nat) : List Nat :=
  if m < 10 then [48 + m] else natToDigits (m / 10) ++ [48 + m % 10]
  decreasing_by exact Nat.div_lt_self (by omega) (by omega)

/-- Rust `i64::to_string`: optional minus sign followed by the decimal
digits of the absolute value. -/
def intDecBytes (n : Int) : List Nat :=
  if n < 0 then 45 :: natToDigits n.natAbs else natToDigits n.toNat

/-- Digit-accumulating loop of integer parsing: fails on the first byte
outside `'0'..='9'`. -/
def parseDigitsAux (acc : Nat) : List Nat → Option Nat
  | [] => some acc
  | c :: rest =>
    if 48 ≤ c ∧ c ≤ 57 then parseDigitsAux (acc * 10 + (c - 48)) rest
    else none

/-- Parse a nonempty all-digit byte string to a natural number. -/
def parseDigits (l : List Nat) : Option Nat :=
  match l with
  | [] => none
  | _ :: _ => parseDigitsAux 0 l

/-- Rust `str::parse::<i64>`: optional leading `+`/`-`, at least one digit,
no other characters, result within `[-2^63, 2^63 - 1]` (parsing fails on
overflow). -/
def parseI64 (l : List Nat) : Option Int :=
  match l with
  | [] => none
  | c :: rest =>
    if c = 43 then
      match parseDigits rest with
      | some m => if m ≤ 2 ^ 63 - 1 then some (m : Int) else none
      | none => none
    else if c = 45 then
      match parseDigits rest with
      | some m => if m ≤ 2 ^ 63 then some (-(m : Int)) else none
      | none => none
    else
      match parseDigits (c :: rest) with
      | some m => if m ≤ 2 ^ 63 - 1 then some (m : Int) else none
      | none => none

/-- Index of the first occurrence of byte `c`, if any: the stopping point
of the `while data[i] != c` scans in `decode_string`/`decode_number`
(`none` when the scan runs off the end of the slice and panics). -/
def scanIdx (c : Nat) : List Nat → Option Nat
  | [] => none
  | b :: rest => if b = c then some 0 else (scanIdx c rest).map (· + 1)

/-- `Bencode::decode_string`: scan for `':'` (panicking if absent), parse
the prefix as an `i64` length (via `String::from_utf8`, then `parse`), then
copy `length` bytes one by one (panicking at the first out-of-bounds
read). Returns the value and the number of bytes consumed. -/
def decode_string (data : List Nat) : DRes (Bencode × Nat) :=
  match scanIdx 58 data with
  | none => DRes.panic
  | some i =>
    let chunk := data.take i
    if utf8Valid chunk then
      match parseI64 chunk with
      | none => DRes.err BencodeError.InvalidBencodeString
      | some len =>
        let n := len.toNat
        if i + 1 + n ≤ data.length then
          DRes.ok (Bencode.BString ((data.drop (i + 1)).take n), i + 1 + n)
        else DRes.panic
    else DRes.err BencodeError.InvalidBencodeString

/-- `Bencode::decode_number`: scan for `'e'` from index 1 (panicking if
absent), parse `data[1..i]` as an `i64`. -/
def decode_number (data : List Nat) : DRes (Bencode × Nat) :=
  match scanIdx 101 (data.drop 1) with
  | none => DRes.panic
  | some j =>
    let chunk := (data.drop 1).take j
    if utf8Valid chunk then
      match parseI64 chunk with
      | none => DRes.err BencodeError.InvalidBencodeNumber
      | some n => DRes.ok (Bencode.BNumber n, j + 2)
    else DRes.err BencodeError.InvalidBencodeNumber

mutual

/-- `Bencode::do_decode`: dispatch on the first byte (`'i'` number, `'l'`
list, `'d'` dictionary, digit string; empty or unrecognized input is
`InvalidBencode`).  The fuel only bounds the loop/recursion depth of the
embedding. -/
def do_decode : Nat → List Nat → DRes (Bencode × Nat)
  | 0, _ => DRes.fuelOut
  | fuel + 1, data =>
    match data.head? with
    | none => DRes.err BencodeError.InvalidBencode
    | some b =>
      if b = 105 then decode_number data
      else if b = 108 then decodeListLoop fuel data 1 []
      else if b = 100 then decodeDictLoop fuel data 1 []
      else if 48 ≤ b ∧ b ≤ 57 then decode_string data
      else DRes.err BencodeError.InvalidBencode

/-- The `while data[i] != b'e'` loop of `Bencode::decode_list`: reading
`data[i]` panics past the end; otherwise decode an element at `i`, push it,
and advance by its size. -/
def decodeListLoop : Nat → List Nat → Nat → List Bencode →
    DRes (Bencode × Nat)
  | 0, _, _, _ => DRes.fuelOut
  | fuel + 1, data, i, acc =>
    match data[i]? with
    | none => DRes.panic
    | some b =>
      if b = 101 then DRes.ok (Bencode.BList acc, i + 1)
      else
        match do_decode fuel (data.drop i) with
        | DRes.ok (v, size) => decodeListLoop fuel data (i + size) (acc ++ [v])
        | DRes.err e => DRes.err e
        | DRes.panic => DRes.panic
        | DRes.fuelOut => DRes.fuelOut

/-- The loop of `Bencode::decode_dict`: decode a key and a value, then
insert into the `BTreeMap` if the key is a byte string, failing with
`InvalidBencodeDict` otherwise. -/
def decodeDictLoop : Nat → List Nat → Nat → List (List Nat × Bencode) →
    DRes (Bencode × Nat)
  | 0, _, _, _ => DRes.fuelOut
  | fuel + 1, data, i, dict =>
    match data[i]? with
    | none => DRes.panic
    | some b =>
      if b = 101 then DRes.ok (Bencode.BDict dict, i + 1)
      else
        match do_decode fuel (data.drop i) with
        | DRes.ok (key, size) =>
          match do_decode fuel (data.drop (i + size)) with
          | DRes.ok (value, size2) =>
            match key with
            | Bencode.BString k =>
              decodeDictLoop fuel data (i + size + size2) (btInsert k value dict)
            | _ => DRes.err BencodeError.InvalidBencodeDict
          | DRes.err e => DRes.err e
          | DRes.panic => DRes.panic
          | DRes.fuelOut => DRes.fuelOut
        | DRes.err e => DRes.err e
        | DRes.panic => DRes.panic
        | DRes.fuelOut => DRes.fuelOut

end

/-- `Bencode::decode`: run `do_decode` on the whole input and drop the
consumed-size component.  The fuel `2 * data.length + 2` dominates the
recursion depth of any run on `data`. -/
def decode (data : List Nat) : DRes Bencode :=
  match do_decode (2 * data.length + 2) data with
  | DRes.ok (v, _) => DRes.ok v
  | DRes.err e => DRes.err e
  | DRes.panic => DRes.panic
  | DRes.fuelOut => DRes.fuelOut

/-- `Bencode::encode_number`: `i<dec>e`. -/
def encode_number (n : Int) : List Nat := 105 :: intDecBytes n ++ [101]

/-- `Bencode::encode_string`: `<len>:<bytes>`. -/
def encode_string (s : List Nat) : List Nat :=
  natToDigits s.length ++ 58 :: s

mutual

/-- `Bencode::do_encode`. -/
def do_encode : Bencode → List Nat
  | Bencode.BNumber n => encode_number n
  | Bencode.BString s => encode_string s
  | Bencode.BList l => 108 :: encList l ++ [101]
  | Bencode.BDict d => 100 :: encPairs d ++ [101]

/-- Body of `Bencode::encode_list`: the elements' encodings in order. -/
def encList : List Bencode → List Nat
  | [] => []
  | v :: vs => do_encode v ++ encList vs

/-- Body of `Bencode::encode_dict`: key-value encodings in the map's
(sorted) iteration order; the key is encoded as a byte string. -/
def encPairs : List (List Nat × Bencode) → List Nat
  | [] => []
  | (k, v) :: ps => encode_string k ++ do_encode v ++ encPairs ps

end

/-- Keys of a dictionary list are strictly increasing in byte-lex order:
the `BTreeMap` invariant. -/
def keysSorted : List (List Nat × Bencode) → Bool
  | [] => true
  | [_] => true
  | (k1, _) :: (k2, v2) :: rest =>
    lexLt k1 k2 && keysSorted ((k2, v2) :: rest)

mutual

/-- A value producible by the Rust codec: every integer fits in `i64`,
every byte string (and dictionary key) has length at most `isize::MAX =
2^63 - 1` (the Rust allocation bound on `Vec` lengths), and every
dictionary is sorted — the `BTreeMap` invariant. -/
def wfB : Bencode → Bool
  | Bencode.BNumber n =>
    decide (-(2 ^ 63 : Int) ≤ n) && decide (n ≤ 2 ^ 63 - 1)
  | Bencode.BString s => decide (s.length ≤ 2 ^ 63 - 1)
  | Bencode.BList l => wfBList l
  | Bencode.BDict d => keysSorted d && wfBPairs d

/-- `wfB` on every element. -/
def wfBList : List Bencode → Bool
  | [] => true
  | v :: vs => wfB v && wfBList vs

/-- `wfB` on every value, key lengths within the `Vec` bound. -/
def wfBPairs : List (List Nat × Bencode) → Bool
  | [] => true
  | (k, v) :: ps =>
    decide (k.length ≤ 2 ^ 63 - 1) && wfB v && wfBPairs ps

end

/-- A nested test value for the codec round-trip: the dictionary
`{"a": 1, "b": ["x", -7], "c": "spam"}`. -/
def c7Value : Bencode :=
  Bencode.BDict
    [([97], Bencode.BNumber 1),
     ([98], Bencode.BList [Bencode.BString [120], Bencode.BNumber (-7)]),
     ([99], Bencode.BString [115, 112, 97, 109])]

/-! ## Helper lemmas -/

/-- `l[n]?` is `some` exactly for in-range indices. -/
theorem getIdx_isSome_iff {α : Type} (l : List α) (n : Nat) :
    l[n]?.isSome = true ↔ n < l.length := by
  constructor
  · intro h
    by_contra hn
    rw [List.getElem?_eq_none (by omega)] at h
    simp at h
  · intro h
    rw [List.getElem?_eq_getElem h]
    rfl

/-- The `diff` loop succeeds exactly when it never indexes `other` out of
bounds: all positions `idx, …, idx + l.length - 1` exist in `other`. -/
theorem diffAux_isSome_iff (other l : List Nat) : ∀ idx : Nat,
    (diffAux other l idx).isSome = true ↔
      (l = [] ∨ idx + l.length ≤ other.length) := by
  induction l with
  | nil => intro idx; simp [diffAux]
  | cons byte rest ih =>
    intro idx
    unfold diffAux
    cases h : other[idx]? with
    | none =>
      have hlen : other.length ≤ idx := by
        by_contra hc
        rw [List.getElem?_eq_getElem (by omega)] at h
        cases h
      simp only [Option.isSome_none, List.length_cons]
      constructor
      · intro hfalse; cases hfalse
      · rintro (hnil | hle)
        · cases hnil
        · omega
    | some ob =>
      have hlt : idx < other.length := by
        by_contra hc
        rw [List.getElem?_eq_none (by omega)] at h
        cases h
      have hmap : ∀ (f : List Nat → List Nat) (o : Option (List Nat)),
          (Option.map f o).isSome = o.isSome := by
        intro f o; cases o <;> rfl
      simp only [hmap, ih (idx + 1), List.length_cons]
      constructor
      · rintro (hnil | hle)
        · subst hnil; right; simp only [List.length_nil]; omega
        · right; omega
      · rintro (hnil | hle)
        · cases hnil
        · by_cases hr : rest = []
          · exact Or.inl hr
          · right; omega

/-! ## Claim C9: partiality of the bitfield operations -/

/-- C9: `has_piece` and `set_bit` are defined (do not panic) exactly when
`index < 8 * bitfield.length` — an index whose byte position `index / 8`
falls outside the vector panics instead of returning `false` or an error —
and `a.diff(b)` is defined exactly when `b` has at least as many bytes as
`a`. -/
theorem C9_bitfield_partiality :
    ∀ (bf a b : List Nat) (i : Nat) (v : Bool),
      ((hasPiece bf i).isSome = true ↔ i < 8 * bf.length) ∧
      ((setBit bf i v).isSome = true ↔ i < 8 * bf.length) ∧
      ((diffBitfield a b).isSome = true ↔ a.length ≤ b.length) := by
  intro bf a b i v
  have hdiv : i / 8 < bf.length ↔ i < 8 * bf.length := by
    rw [Nat.mul_comm]
    exact Nat.div_lt_iff_lt_mul (by omega)
  refine ⟨?_, ?_, ?_⟩
  · have : (hasPiece bf i).isSome = (bf[i / 8]?).isSome := by
      unfold hasPiece
      cases bf[i / 8]? <;> rfl
    rw [this, getIdx_isSome_iff]
    exact hdiv
  · have : (setBit bf i v).isSome = (bf[i / 8]?).isSome := by
      unfold setBit
      cases bf[i / 8]? <;> rfl
    rw [this, getIdx_isSome_iff]
    exact hdiv
  · rw [diffBitfield, diffAux_isSome_iff]
    constructor
    · rintro (rfl | hle)
      · simp
      · omega
    · intro hle
      right; omega

/-! ## Claim C1: the counter invariant, broken by endgame selection -/

/-- C1 (failing run): on a 1-piece torrent, select the piece (it becomes
`Downloading`), then call `select_piece` again with a full remote bitfield.
The second call takes the endgame branch — no piece is `Free` — yet still
falls through to the shared counter update: `free_pieces` is decremented
from `0`, wrapping to `2^64 - 1`, and `downloading_pieces` is incremented
to `2`.  Afterwards no counter equals the count of pieces in its status and
the counter sum is not `total_pieces = 1`, for every RNG seed. -/
theorem C1_endgame_breaks_counter_invariant :
    ∀ seed seed' : Nat,
      select_piece seed [255] (statusNew [0]) =
        some (some 0, ⟨[(0, PieceStatus.Downloading)], 0, 1, 0⟩) ∧
      select_piece seed' [255] ⟨[(0, PieceStatus.Downloading)], 0, 1, 0⟩ =
        some (some 0, ⟨[(0, PieceStatus.Downloading)], 0, 2, 2 ^ 64 - 1⟩) ∧
      countStatus PieceStatus.Free [(0, PieceStatus.Downloading)] = 0 ∧
      countStatus PieceStatus.Downloading [(0, PieceStatus.Downloading)] = 1 ∧
      countStatus PieceStatus.Finished [(0, PieceStatus.Downloading)] = 0 ∧
      2 ^ 64 - 1 ≠ 0 ∧ (2 : Nat) ≠ 1 ∧
      (2 ^ 64 - 1) + 2 + 0 ≠ [(0, PieceStatus.Downloading)].length := by
  intro seed seed'
  have h1 : seed' % 1 = 0 := Nat.mod_one seed'
  refine ⟨rfl, ?_, rfl, rfl, rfl, by decide, by decide, by decide⟩
  simp [select_piece, countStatus, chooseRand, h1, updatePiece,
    usizeAdd1, usizeSub1, USIZE]

/-! ## Claim C3: endgame selection is not state-preserving -/

/-- C3 (failing run): with piece map `{0 ↦ Downloading}` and counters
`finished = 0, downloading = 1, free = 0`, `select_piece` on a full remote
bitfield returns the (only) `Downloading` index `0` — but, contrary to the
claim, mutates the counters: `downloading_pieces` becomes `2` and
`free_pieces` wraps to `2^64 - 1` (the piece map itself is unchanged). -/
theorem C3_endgame_select_mutates_counters :
    ∀ seed : Nat,
      select_piece seed [255] ⟨[(0, PieceStatus.Downloading)], 0, 1, 0⟩ =
        some (some 0, ⟨[(0, PieceStatus.Downloading)], 0, 2, 2 ^ 64 - 1⟩) ∧
      lookupPiece 0 [(0, PieceStatus.Downloading)] =
        some PieceStatus.Downloading ∧
      (2 : Nat) ≠ 1 ∧ 2 ^ 64 - 1 ≠ 0 := by
  intro seed
  have h1 : seed % 1 = 0 := Nat.mod_one seed
  refine ⟨?_, rfl, by decide, by decide⟩
  simp [select_piece, countStatus, chooseRand, h1, updatePiece,
    usizeAdd1, usizeSub1, USIZE]

/-! ## Claim C2: piece selection order -/

/-- C2 (counterexample): a status whose piece map iterates in the order
`[(1, Free), (0, Free)]` — a possible `HashMap` iteration order for keys
`{0, 1}` — with a remote bitfield that has both pieces.  `select_piece`
returns index `1`, although the smallest `Free` index the bitfield has is
`0 < 1`: the claim's "smallest index" is false. -/
theorem C2_cex_not_smallest_index :
    select_piece 0 [255]
        ⟨[(1, PieceStatus.Free), (0, PieceStatus.Free)], 0, 0, 2⟩ =
      some (some 1,
        ⟨[(1, PieceStatus.Downloading), (0, PieceStatus.Free)], 0, 1, 1⟩) ∧
    lookupPiece 0 [(1, PieceStatus.Free), (0, PieceStatus.Free)] =
      some PieceStatus.Free ∧
    hasPiece [255] 0 = some true ∧
    (0 : Nat) < 1 := by
  exact ⟨rfl, rfl, rfl, by decide⟩

/-- After `updatePiece i st`, looking up `i` yields `st` (provided some
entry with key `i` exists). -/
theorem lookupPiece_updatePiece_self (m : List (Nat × PieceStatus))
    (i : Nat) (st : PieceStatus) (h : (lookupPiece i m).isSome = true) :
    lookupPiece i (updatePiece i st m) = some st := by
  induction m with
  | nil => simp [lookupPiece] at h
  | cons hd tl ih =>
    obtain ⟨a, b⟩ := hd
    by_cases ha : a = i
    · subst ha
      have h1 : updatePiece a st ((a, b) :: tl) =
          (a, st) :: updatePiece a st tl := by
        simp [updatePiece]
      rw [h1]
      simp [lookupPiece, List.find?]
    · have h1 : updatePiece i st ((a, b) :: tl) =
          (a, b) :: updatePiece i st tl := by
        simp [updatePiece, ha]
      rw [h1]
      have hdj : (decide (a = i)) = false := decide_eq_false ha
      simp only [lookupPiece, List.find?, hdj] at h ⊢
      exact ih h

/-- `updatePiece i st` does not change the value found for any other
key. -/
theorem lookupPiece_updatePiece_other (m : List (Nat × PieceStatus))
    (i j : Nat) (st : PieceStatus) (hne : j ≠ i) :
    lookupPiece j (updatePiece i st m) = lookupPiece j m := by
  induction m with
  | nil => rfl
  | cons hd tl ih =>
    obtain ⟨a, b⟩ := hd
    by_cases ha : a = i
    · subst ha
      have hdj : (decide (a = j)) = false :=
        decide_eq_false fun h => hne h.symm
      have h1 : updatePiece a st ((a, b) :: tl) =
          (a, st) :: updatePiece a st tl := by
        simp [updatePiece]
      rw [h1]
      simp only [lookupPiece, List.find?, hdj]
      exact ih
    · have h1 : updatePiece i st ((a, b) :: tl) =
          (a, b) :: updatePiece i st tl := by
        simp [updatePiece, ha]
      rw [h1]
      by_cases haj : a = j
      · subst haj
        simp [lookupPiece, List.find?]
      · have hdj : (decide (a = j)) = false := decide_eq_false haj
        simp only [lookupPiece, List.find?, hdj]
        exact ih

/-- The entry count of a status is positive when a piece carries it. -/
theorem countStatus_pos (m : List (Nat × PieceStatus))
    (p : Nat × PieceStatus) (st : PieceStatus) (hp : p ∈ m)
    (hst : p.2 = st) : 0 < countStatus st m := by
  have : p ∈ m.filter fun q => q.2 = st :=
    List.mem_filter.2 ⟨hp, by simp [hst]⟩
  exact List.length_pos_of_mem this

/-- The `filter(Free).find(has_piece)` walk returns the first `Free` entry
the bitfield has, when the entries before it are either not `Free` or not
in the bitfield. -/
theorem findFree_append (bf : List Nat) (l1 l2 : List (Nat × PieceStatus))
    (i : Nat)
    (hpre : ∀ p ∈ l1, p.2 = PieceStatus.Free → hasPiece bf p.1 = some false)
    (hit : hasPiece bf i = some true) :
    findFreeInBitfield bf (l1 ++ (i, PieceStatus.Free) :: l2) =
      some (some i) := by
  induction l1 with
  | nil => simp [findFreeInBitfield, hit]
  | cons hd tl ih =>
    obtain ⟨a, b⟩ := hd
    by_cases hb : b = PieceStatus.Free
    · subst hb
      have := hpre (a, PieceStatus.Free) (by simp) rfl
      simp only [List.cons_append, findFreeInBitfield, if_pos rfl, this]
      exact ih fun p hp hf => hpre p (by simp [hp]) hf
    · simp only [List.cons_append, findFreeInBitfield, if_neg hb]
      exact ih fun p hp hf => hpre p (by simp [hp]) hf

/-- The walk returns "no candidate" when every `Free` entry's bitfield
test is `false`. -/
theorem findFree_none (bf : List Nat) (l : List (Nat × PieceStatus))
    (hall : ∀ p ∈ l, p.2 = PieceStatus.Free → hasPiece bf p.1 = some false) :
    findFreeInBitfield bf l = some none := by
  induction l with
  | nil => rfl
  | cons hd tl ih =>
    obtain ⟨a, b⟩ := hd
    by_cases hb : b = PieceStatus.Free
    · subst hb
      have := hall (a, PieceStatus.Free) (by simp) rfl
      simp only [findFreeInBitfield, if_pos rfl, this]
      exact ih fun p hp hf => hall p (by simp [hp]) hf
    · simp only [findFreeInBitfield, if_neg hb]
      exact ih fun p hp hf => hall p (by simp [hp]) hf

/-- `fetch_sub(1)` on a positive in-range counter is plain subtraction. -/
theorem usizeSub1_eq (x : Nat) (h1 : 1 ≤ x) (h2 : x < 2 ^ 64) :
    usizeSub1 x = x - 1 := by
  unfold usizeSub1 USIZE
  omega

/-- `fetch_add(1)` below the wrap point is plain addition. -/
theorem usizeAdd1_eq (x : Nat) (h : x + 1 < 2 ^ 64) :
    usizeAdd1 x = x + 1 := by
  unfold usizeAdd1 USIZE
  omega

/-- A key present in the map is found by `lookupPiece`. -/
theorem lookupPiece_isSome_of_mem (m : List (Nat × PieceStatus)) (i : Nat)
    (st : PieceStatus) (h : (i, st) ∈ m) :
    (lookupPiece i m).isSome = true := by
  induction m with
  | nil => cases h
  | cons hd tl ih =>
    obtain ⟨a, b⟩ := hd
    by_cases ha : a = i
    · subst ha
      simp [lookupPiece, List.find?]
    · have hdj : (decide (a = i)) = false := decide_eq_false ha
      simp only [lookupPiece, List.find?, hdj]
      rcases List.mem_cons.1 h with heq | hmem
      · cases heq; simp at ha
      · exact ih hmem

/-! ## Claim C2 (amended): what `select_piece` actually selects -/

/-- C2 (amended): when some piece is `Free`, `select_piece` returns the
first `Free` entry in the piece map's (hash-dependent) iteration order
that the remote bitfield has — an index that is `Free` and present in the
bitfield, though not necessarily the smallest such index — transitions
exactly that piece to `Downloading`, decrements `free_pieces` and
increments `downloading_pieces`; and when some piece is `Free` but no
`Free` piece is in the bitfield, it returns `None` and leaves the state
unchanged. -/
theorem C2_amended_select_piece_spec :
    ∀ (bf : List Nat) (s : TorrentStatus) (seed : Nat),
      (∀ l1 i l2,
        s.pieces_status = l1 ++ (i, PieceStatus.Free) :: l2 →
        hasPiece bf i = some true →
        (∀ p ∈ l1, p.2 = PieceStatus.Free → hasPiece bf p.1 = some false) →
        s.free_pieces = countStatus PieceStatus.Free s.pieces_status →
        s.free_pieces < 2 ^ 64 →
        s.downloading_pieces + 1 < 2 ^ 64 →
        ∃ s', select_piece seed bf s = some (some i, s') ∧
          lookupPiece i s'.pieces_status = some PieceStatus.Downloading ∧
          (∀ j, j ≠ i →
            lookupPiece j s'.pieces_status = lookupPiece j s.pieces_status) ∧
          s'.free_pieces = s.free_pieces - 1 ∧
          s'.downloading_pieces = s.downloading_pieces + 1 ∧
          s'.finished_pieces = s.finished_pieces) ∧
      ((∃ q ∈ s.pieces_status, q.2 = PieceStatus.Free) →
        (∀ p ∈ s.pieces_status, p.2 = PieceStatus.Free →
          hasPiece bf p.1 = some false) →
        select_piece seed bf s = some (none, s)) := by
  intro bf s seed
  constructor
  · intro l1 i l2 hms hit hpre hfree hflt hdlt
    have hmem : (i, PieceStatus.Free) ∈ s.pieces_status := by
      rw [hms]; simp
    have hcpos : 0 < countStatus PieceStatus.Free s.pieces_status :=
      countStatus_pos _ _ _ hmem rfl
    have hcne : ¬(countStatus PieceStatus.Free s.pieces_status = 0) := by
      omega
    refine ⟨{ s with
        pieces_status := updatePiece i PieceStatus.Downloading s.pieces_status
        downloading_pieces := usizeAdd1 s.downloading_pieces
        free_pieces := usizeSub1 s.free_pieces }, ?_, ?_, ?_, ?_, ?_, ?_⟩
    · unfold select_piece
      rw [if_neg hcne]
      rw [hms, findFree_append bf l1 l2 i hpre hit, ← hms]
    · exact lookupPiece_updatePiece_self _ _ _
        (lookupPiece_isSome_of_mem _ _ _ hmem)
    · intro j hj
      exact lookupPiece_updatePiece_other _ _ _ _ hj
    · exact usizeSub1_eq _ (by omega) hflt
    · exact usizeAdd1_eq _ hdlt
    · rfl
  · rintro ⟨q, hq, hqf⟩ hall
    have hcpos : 0 < countStatus PieceStatus.Free s.pieces_status :=
      countStatus_pos _ _ _ hq hqf
    have hcne : ¬(countStatus PieceStatus.Free s.pieces_status = 0) := by
      omega
    unfold select_piece
    rw [if_neg hcne, findFree_none bf _ hall]

/-- C2 (witness): the amended statement applied to a 1-piece status whose
only piece is `Free` and covered by the bitfield. -/
theorem C2_amended_witness :
    ∃ s', select_piece 0 [255] ⟨[(0, PieceStatus.Free)], 0, 0, 1⟩ =
        some (some 0, s') ∧
      lookupPiece 0 s'.pieces_status = some PieceStatus.Downloading ∧
      (∀ j, j ≠ 0 →
        lookupPiece j s'.pieces_status =
          lookupPiece j (TorrentStatus.mk [(0, PieceStatus.Free)] 0 0
            1).pieces_status) ∧
      s'.free_pieces = 1 - 1 ∧
      s'.downloading_pieces = 0 + 1 ∧
      s'.finished_pieces = 0 :=
  (C2_amended_select_piece_spec [255] ⟨[(0, PieceStatus.Free)], 0, 0, 1⟩
      0).1 [] 0 [] rfl rfl (by simp) rfl (by decide) (by decide)

/-! ## Claim C5: handshake parsing -/

/-- C5 (counterexample): `from_bytes` accepts `c5Input` although its
`pstr` is not `"BitTorrent protocol"` — the claimed rejection of frames
with a wrong protocol string does not happen. -/
theorem C5_cex_accepts_wrong_pstr :
    handshakeFromBytes c5Input =
      Except.ok
        { pstrlen := 19
          pstr := List.replicate 19 65
          reserved := List.replicate 8 0
          info_hash := List.replicate 20 0
          peer_id := List.replicate 20 0 } ∧
    List.replicate 19 65 ≠ PSTR := by
  exact ⟨rfl, by decide⟩

/-- C5 (amended): `from_bytes` succeeds exactly on 68-byte inputs whose
first byte is `19` and whose bytes `1..20` are valid UTF-8; the protocol
string itself is never compared. -/
theorem C5_amended_from_bytes_success_iff :
    ∀ bytes : List Nat,
      (∃ h, handshakeFromBytes bytes = Except.ok h) ↔
        (bytes.length = 68 ∧ bytes.head? = some 19 ∧
         utf8Valid ((bytes.drop 1).take 19) = true) := by
  intro bytes
  unfold handshakeFromBytes
  by_cases hl : bytes.length = 68
  · cases bytes with
    | nil => simp at hl
    | cons b rest =>
      simp only [hl, List.head?]
      by_cases hb : b = 19
      · subst hb
        by_cases hu : utf8Valid (((19 :: rest).drop 1).take 19) = true <;>
          simp_all
      · simp [hb]
  · simp [hl]

/-! ## Claim C4: `piece_downloaded` -/

/-- C4: `piece_downloaded(i, bytes)` errors with `InvalidPieceIndex` on an
unknown index and `PieceWasNotDownloading` on a piece not in `Downloading`,
leaving the state untouched; when the block-store write fails the
`SavePieceError` propagates with the piece still `Downloading` and all
counters unchanged; on success the piece becomes `Finished`, `downloading`
is decremented and `finished` incremented (other pieces and the `free`
counter untouched), and a second `piece_downloaded` on the same index then
fails with `PieceWasNotDownloading`. -/
theorem C4_piece_downloaded_spec :
    ∀ (s : TorrentStatus) (i : Nat),
      (lookupPiece i s.pieces_status = none →
        ∀ saveOk, piece_downloaded saveOk i s =
          (Except.error ATSError.InvalidPieceIndex, s)) ∧
      (∀ st, lookupPiece i s.pieces_status = some st →
        st ≠ PieceStatus.Downloading →
        ∀ saveOk, piece_downloaded saveOk i s =
          (Except.error ATSError.PieceWasNotDownloading, s)) ∧
      (lookupPiece i s.pieces_status = some PieceStatus.Downloading →
        piece_downloaded false i s =
          (Except.error ATSError.SavePieceError, s)) ∧
      (lookupPiece i s.pieces_status = some PieceStatus.Downloading →
        0 < s.downloading_pieces → s.downloading_pieces < 2 ^ 64 →
        s.finished_pieces + 1 < 2 ^ 64 →
        ∃ s', piece_downloaded true i s = (Except.ok (), s') ∧
          lookupPiece i s'.pieces_status = some PieceStatus.Finished ∧
          (∀ j, j ≠ i → lookupPiece j s'.pieces_status =
            lookupPiece j s.pieces_status) ∧
          s'.downloading_pieces = s.downloading_pieces - 1 ∧
          s'.finished_pieces = s.finished_pieces + 1 ∧
          s'.free_pieces = s.free_pieces ∧
          (∀ saveOk2, piece_downloaded saveOk2 i s' =
            (Except.error ATSError.PieceWasNotDownloading, s'))) := by
  intro s i
  refine ⟨?_, ?_, ?_, ?_⟩
  · intro h saveOk
    unfold piece_downloaded
    rw [h]
  · intro st h hne saveOk
    unfold piece_downloaded
    rw [h]
    simp [hne]
  · intro h
    unfold piece_downloaded
    rw [h]
    simp
  · intro h h1 h2 h3
    have hsome : (lookupPiece i s.pieces_status).isSome = true := by
      rw [h]; rfl
    have hfin : lookupPiece i
        (updatePiece i PieceStatus.Finished s.pieces_status) =
        some PieceStatus.Finished :=
      lookupPiece_updatePiece_self _ _ _ hsome
    refine ⟨{ s with
        pieces_status := updatePiece i PieceStatus.Finished s.pieces_status
        downloading_pieces := usizeSub1 s.downloading_pieces
        finished_pieces := usizeAdd1 s.finished_pieces },
      ?_, hfin, ?_, ?_, ?_, rfl, ?_⟩
    · unfold piece_downloaded
      rw [h]
      simp
    · intro j hj
      exact lookupPiece_updatePiece_other _ _ _ _ hj
    · exact usizeSub1_eq _ (by omega) h2
    · exact usizeAdd1_eq _ h3
    · intro saveOk2
      unfold piece_downloaded
      rw [hfin]
      simp

/-- C4 (witness): the success-then-retry branch on a 1-piece status whose
piece is `Downloading`. -/
theorem C4_witness :
    ∃ s', piece_downloaded true 0
        ⟨[(0, PieceStatus.Downloading)], 0, 1, 0⟩ = (Except.ok (), s') ∧
      lookupPiece 0 s'.pieces_status = some PieceStatus.Finished ∧
      (∀ j, j ≠ 0 → lookupPiece j s'.pieces_status =
        lookupPiece j (TorrentStatus.mk [(0, PieceStatus.Downloading)]
          0 1 0).pieces_status) ∧
      s'.downloading_pieces = 1 - 1 ∧
      s'.finished_pieces = 0 + 1 ∧
      s'.free_pieces = 0 ∧
      (∀ saveOk2, piece_downloaded saveOk2 0 s' =
        (Except.error ATSError.PieceWasNotDownloading, s')) :=
  (C4_piece_downloaded_spec ⟨[(0, PieceStatus.Downloading)], 0, 1, 0⟩
      0).2.2.2 rfl (by decide) (by decide) (by decide)

/-! ## Claim C8: seeder/leecher classification -/

/-- C8 (counterexample): for a peer with `left == 0` and last event
`started`, `is_seeder` and `is_leecher` both hold — they are not
complementary, so "exactly one of them holds" is false. -/
theorem C8_cex_seeder_and_leecher_both :
    isSeeder c8Peer = true ∧ isLeecher c8Peer = true :=
  ⟨rfl, rfl⟩

/-- C8 (amended): `is_seeder(p)` holds exactly when `left == 0` or the
last event is `completed`, and every peer satisfies at least one of
`is_seeder`, `is_leecher`; but the two predicates can hold together
(`is_leecher` is `left > 0 ∨ (event ≠ completed ∧ event ≠ none)`, not the
negation of `is_seeder`). -/
theorem C8_amended_classification :
    ∀ p : TrackerPeer,
      (isSeeder p = true ↔
        (p.status.left = 0 ∨ p.status.event = some PeerEvent.Completed)) ∧
      (isLeecher p = true ↔
        (p.status.left > 0 ∨ (p.status.event ≠ some PeerEvent.Completed ∧
          p.status.event ≠ none))) ∧
      (isSeeder p || isLeecher p) = true := by
  intro p
  refine ⟨by simp [isSeeder], by simp [isLeecher], ?_⟩
  rcases h : p.status.event with _ | e <;>
    simp [isSeeder, isLeecher, h] <;> omega

/-! ## Codec lemmas, towards claim C7 -/

/-- `natToDigits` is nonempty and consists of ASCII digit bytes. -/
theorem natToDigits_spec (m : Nat) :
    ∃ d ds, natToDigits m = d :: ds ∧
      ∀ c ∈ natToDigits m, 48 ≤ c ∧ c ≤ 57 := by
  induction m using Nat.strong_induction_on with
  | _ m ih =>
    by_cases h : m < 10
    · refine ⟨48 + m, [], ?_, ?_⟩
      · rw [natToDigits, if_pos h]
      · intro c hc
        rw [natToDigits, if_pos h] at hc
        simp at hc
        omega
    · have hdiv : m / 10 < m := Nat.div_lt_self (by omega) (by omega)
      obtain ⟨d, ds, hds, hall⟩ := ih (m / 10) hdiv
      refine ⟨d, ds ++ [48 + m % 10], ?_, ?_⟩
      · rw [natToDigits, if_neg h, hds]
        simp
      · intro c hc
        rw [natToDigits, if_neg h] at hc
        rcases List.mem_append.1 hc with hc1 | hc2
        · exact hall c hc1
        · simp at hc2
          omega

/-- The digit-parsing loop splits over appends. -/
theorem parseDigitsAux_append (acc : Nat) (l1 l2 : List Nat) :
    parseDigitsAux acc (l1 ++ l2) =
      match parseDigitsAux acc l1 with
      | some m => parseDigitsAux m l2
      | none => none := by
  induction l1 generalizing acc with
  | nil => simp [parseDigitsAux]
  | cons c rest ih =>
    simp only [List.cons_append, parseDigitsAux]
    by_cases hc : 48 ≤ c ∧ c ≤ 57
    · rw [if_pos hc, if_pos hc]
      exact ih _
    · rw [if_neg hc, if_neg hc]

/-- Parsing the canonical digits of `m` accumulates to `m`. -/
theorem parseDigitsAux_natToDigits (m : Nat) : ∀ acc : Nat,
    parseDigitsAux acc (natToDigits m) =
      some (acc * 10 ^ (natToDigits m).length + m) := by
  induction m using Nat.strong_induction_on with
  | _ m ih =>
    intro acc
    by_cases h : m < 10
    · rw [natToDigits, if_pos h]
      have hd : 48 ≤ 48 + m ∧ 48 + m ≤ 57 := by omega
      simp only [parseDigitsAux, if_pos hd, List.length_singleton]
      congr 1
      rw [pow_one]
      omega
    · have hdiv : m / 10 < m := Nat.div_lt_self (by omega) (by omega)
      have heq : natToDigits m = natToDigits (m / 10) ++ [48 + m % 10] := by
        rw [natToDigits]
        rw [if_neg h]
      have hlen : (natToDigits m).length =
          (natToDigits (m / 10)).length + 1 := by
        rw [heq]; simp
      rw [heq, parseDigitsAux_append, ih (m / 10) hdiv acc]
      have hd : 48 ≤ 48 + m % 10 ∧ 48 + m % 10 ≤ 57 := by omega
      simp only [parseDigitsAux, if_pos hd]
      rw [← heq, hlen]
      congr 1
      have h48 : 48 + m % 10 - 48 = m % 10 := by omega
      rw [h48, pow_succ]
      have hm := Nat.div_add_mod m 10
      calc (acc * 10 ^ (natToDigits (m / 10)).length + m / 10) * 10 + m % 10
          = acc * (10 ^ (natToDigits (m / 10)).length * 10) +
              (m / 10 * 10 + m % 10) := by ring
        _ = acc * (10 ^ (natToDigits (m / 10)).length * 10) + m := by
              omega

/-- `parseDigits` inverts `natToDigits`. -/
theorem parseDigits_natToDigits (m : Nat) :
    parseDigits (natToDigits m) = some m := by
  obtain ⟨d, ds, hds, _⟩ := natToDigits_spec m
  unfold parseDigits
  rw [hds]
  show parseDigitsAux 0 (d :: ds) = some m
  rw [← hds, parseDigitsAux_natToDigits m 0]
  simp

/-- Unfolding equation of `parseI64` on a nonempty list. -/
theorem parseI64_cons (c : Nat) (rest : List Nat) :
    parseI64 (c :: rest) =
      if c = 43 then
        match parseDigits rest with
        | some m => if m ≤ 2 ^ 63 - 1 then some (m : Int) else none
        | none => none
      else if c = 45 then
        match parseDigits rest with
        | some m => if m ≤ 2 ^ 63 then some (-(m : Int)) else none
        | none => none
      else
        match parseDigits (c :: rest) with
        | some m => if m ≤ 2 ^ 63 - 1 then some (m : Int) else none
        | none => none := rfl

/-- `parseI64` inverts `natToDigits` within the `i64` range. -/
theorem parseI64_natToDigits (m : Nat) (hm : m ≤ 2 ^ 63 - 1) :
    parseI64 (natToDigits m) = some (m : Int) := by
  obtain ⟨d, ds, hds, hall⟩ := natToDigits_spec m
  have hd := hall d (by rw [hds]; simp)
  rw [hds, parseI64_cons, if_neg (by omega), if_neg (by omega), ← hds,
    parseDigits_natToDigits]
  simp only [if_pos hm]

/-- `parseI64` inverts `i64::to_string` on the `i64` range. -/
theorem parseI64_intDecBytes (n : Int) (h1 : -(2 ^ 63) ≤ n)
    (h2 : n ≤ 2 ^ 63 - 1) : parseI64 (intDecBytes n) = some n := by
  unfold intDecBytes
  by_cases hn : n < 0
  · rw [if_pos hn]
    rw [parseI64_cons, if_neg (by omega), if_pos rfl,
      parseDigits_natToDigits]
    have hb : n.natAbs ≤ 2 ^ 63 := by omega
    show (if n.natAbs ≤ 2 ^ 63 then some (-(n.natAbs : Int)) else none) =
      some n
    rw [if_pos hb]
    congr 1
    omega
  · rw [if_neg hn]
    rw [parseI64_natToDigits n.toNat (by omega)]
    congr 1
    omega

/-- All-ASCII byte lists are valid UTF-8. -/
theorem utf8Valid_of_ascii (l : List Nat) (h : ∀ c ∈ l, c < 128) :
    utf8Valid l = true := by
  induction l with
  | nil => rfl
  | cons b rest ih =>
    have hb : b < 128 := h b (by simp)
    have hw : utf8Width b = 1 := by
      unfold utf8Width
      rw [if_pos hb]
    rw [utf8Valid.eq_def]
    dsimp only
    rw [hw]
    exact ih fun c hc => h c (by simp [hc])

/-- The byte scan finds the first occurrence after a clean prefix. -/
theorem scanIdx_of_not_mem (c : Nat) (l1 l2 : List Nat) (h : c ∉ l1) :
    scanIdx c (l1 ++ c :: l2) = some l1.length := by
  induction l1 with
  | nil => simp [scanIdx]
  | cons b rest ih =>
    have hb : b ≠ c := fun hc => h (by simp [hc])
    simp only [List.cons_append, scanIdx, if_neg hb, List.append_eq]
    rw [ih fun hc => h (by simp [hc])]
    rfl

/-- The byte scan fails on a list not containing the byte (the Rust loop
runs off the end of the slice). -/
theorem scanIdx_eq_none (c : Nat) (l : List Nat) (h : c ∉ l) :
    scanIdx c l = none := by
  induction l with
  | nil => rfl
  | cons b rest ih =>
    have hb : b ≠ c := fun hc => h (by simp [hc])
    simp only [scanIdx, if_neg hb]
    rw [ih fun hc => h (by simp [hc])]
    rfl

/-- A decimal integer rendering is pure ASCII. -/
theorem intDecBytes_ascii (n : Int) : ∀ c ∈ intDecBytes n, c < 128 := by
  intro c hc
  obtain ⟨d, ds, hds, hall⟩ := natToDigits_spec n.natAbs
  unfold intDecBytes at hc
  by_cases hn : n < 0
  · rw [if_pos hn] at hc
    rcases List.mem_cons.1 hc with rfl | hm
    · omega
    · have := hall c hm
      omega
  · rw [if_neg hn] at hc
    have hab : n.toNat = n.natAbs := by omega
    rw [hab] at hc
    have := hall c hc
    omega

/-- `'e'` does not occur in a decimal integer rendering. -/
theorem intDecBytes_no_e (n : Int) : (101 : Nat) ∉ intDecBytes n := by
  intro hc
  obtain ⟨d, ds, hds, hall⟩ := natToDigits_spec n.natAbs
  unfold intDecBytes at hc
  by_cases hn : n < 0
  · rw [if_pos hn] at hc
    rcases List.mem_cons.1 hc with h45 | hm
    · omega
    · have := hall 101 hm
      omega
  · rw [if_neg hn] at hc
    have hab : n.toNat = n.natAbs := by omega
    rw [hab] at hc
    have := hall 101 hc
    omega

/-- `':'` does not occur in a digit run. -/
theorem natToDigits_no_colon (m : Nat) : (58 : Nat) ∉ natToDigits m := by
  intro hc
  obtain ⟨d, ds, hds, hall⟩ := natToDigits_spec m
  have := hall 58 hc
  omega

/-- `decode_string` inverts `encode_string` (the length prefix within
the `i64` range), consuming exactly the encoding. -/
theorem decode_string_encode (s rest : List Nat)
    (hlen : s.length ≤ 2 ^ 63 - 1) :
    decode_string (natToDigits s.length ++ 58 :: (s ++ rest)) =
      DRes.ok (Bencode.BString s,
        (natToDigits s.length).length + 1 + s.length) := by
  obtain ⟨d, ds, hds, hall⟩ := natToDigits_spec s.length
  have hscan : scanIdx 58 (natToDigits s.length ++ 58 :: (s ++ rest)) =
      some (natToDigits s.length).length :=
    scanIdx_of_not_mem 58 _ _ (natToDigits_no_colon _)
  have htake : (natToDigits s.length ++ 58 :: (s ++ rest)).take
      (natToDigits s.length).length = natToDigits s.length :=
    List.take_left _ _
  have hutf : utf8Valid (natToDigits s.length) = true :=
    utf8Valid_of_ascii _ fun c hc => by have := hall c hc; omega
  have hparse : parseI64 (natToDigits s.length) = some (s.length : Int) :=
    parseI64_natToDigits _ hlen
  have hassoc : natToDigits s.length ++ 58 :: (s ++ rest) =
      (natToDigits s.length ++ [58]) ++ (s ++ rest) := by simp
  have hdrop : (natToDigits s.length ++ 58 :: (s ++ rest)).drop
      ((natToDigits s.length).length + 1) = s ++ rest := by
    rw [hassoc]
    have h1 : (natToDigits s.length).length + 1 =
        (natToDigits s.length ++ [58]).length := by simp
    rw [h1, List.drop_left]
  have hts : (s.length : Int).toNat = s.length := Int.toNat_natCast _
  unfold decode_string
  rw [hscan]
  try dsimp only
  rw [htake, hutf]
  try dsimp only
  rw [hparse]
  try dsimp only
  rw [hts]
  have hlen2 : (natToDigits s.length).length + 1 + s.length ≤
      (natToDigits s.length ++ 58 :: (s ++ rest)).length := by
    simp [List.length_append]
    omega
  rw [if_pos hlen2, hdrop, List.take_left]
  simp

/-- `decode_number` inverts `encode_number` on the `i64` range, consuming
exactly the encoding. -/
theorem decode_number_encode (n : Int) (rest : List Nat)
    (h1 : -(2 ^ 63) ≤ n) (h2 : n ≤ 2 ^ 63 - 1) :
    decode_number (105 :: (intDecBytes n ++ 101 :: rest)) =
      DRes.ok (Bencode.BNumber n, (intDecBytes n).length + 2) := by
  have hscan : scanIdx 101 (intDecBytes n ++ 101 :: rest) =
      some (intDecBytes n).length :=
    scanIdx_of_not_mem 101 _ _ (intDecBytes_no_e n)
  have htake : (intDecBytes n ++ 101 :: rest).take
      (intDecBytes n).length = intDecBytes n := List.take_left _ _
  have hutf : utf8Valid (intDecBytes n) = true :=
    utf8Valid_of_ascii _ (intDecBytes_ascii n)
  have hparse : parseI64 (intDecBytes n) = some n :=
    parseI64_intDecBytes n h1 h2
  unfold decode_number
  have hd1 : (105 :: (intDecBytes n ++ 101 :: rest)).drop 1 =
      intDecBytes n ++ 101 :: rest := rfl
  rw [hd1, hscan]
  try dsimp only
  rw [htake, hutf]
  try dsimp only
  rw [hparse]
  simp

/-- Byte-lex order is irreflexive. -/
theorem lexLt_irrefl (a : List Nat) : lexLt a a = false := by
  induction a with
  | nil => rfl
  | cons x xs ih => simp [lexLt, ih]

/-- Byte-lex order is asymmetric. -/
theorem lexLt_asymm (a b : List Nat) (h : lexLt a b = true) :
    lexLt b a = false := by
  induction a generalizing b with
  | nil =>
    cases b with
    | nil => simp [lexLt] at h
    | cons y ys => rfl
  | cons x xs ih =>
    cases b with
    | nil => simp [lexLt] at h
    | cons y ys =>
      simp only [lexLt] at h ⊢
      by_cases hxy : x < y
      · rw [if_neg (by omega), if_pos hxy]
      · rw [if_neg hxy] at h
        by_cases hyx : y < x
        · rw [if_pos hyx] at h; cases h
        · rw [if_neg hyx] at h
          rw [if_neg hyx, if_neg hxy]
          exact ih ys h

/-- Byte-lex order is transitive. -/
theorem lexLt_trans (a b c : List Nat) (h1 : lexLt a b = true)
    (h2 : lexLt b c = true) : lexLt a c = true := by
  induction a generalizing b c with
  | nil =>
    cases c with
    | nil =>
      cases b with
      | nil => simp [lexLt] at h1
      | cons y ys => simp [lexLt] at h2
    | cons z zs => rfl
  | cons x xs ih =>
    cases b with
    | nil => simp [lexLt] at h1
    | cons y ys =>
      cases c with
      | nil => simp [lexLt] at h2
      | cons z zs =>
        simp only [lexLt] at h1 h2 ⊢
        by_cases hxy : x < y <;> by_cases hyz : y < z
        · rw [if_pos (by omega)]
        · rw [if_neg hyz] at h2
          by_cases hzy : z < y
          · rw [if_pos hzy] at h2; cases h2
          · rw [if_pos (by omega)]
        · rw [if_neg hxy] at h1
          by_cases hyx : y < x
          · rw [if_pos hyx] at h1; cases h1
          · rw [if_pos (by omega)]
        · rw [if_neg hxy] at h1
          rw [if_neg hyz] at h2
          by_cases hyx : y < x
          · rw [if_pos hyx] at h1; cases h1
          · by_cases hzy : z < y
            · rw [if_pos hzy] at h2; cases h2
            · rw [if_neg hyx] at h1
              rw [if_neg hzy] at h2
              have hxz : ¬ x < z := by omega
              have hzx : ¬ z < x := by omega
              rw [if_neg hxz, if_neg hzx]
              exact ih ys zs h1 h2

/-- Inserting a key greater than every present key appends. -/
theorem btInsert_append (k : List Nat) (v : Bencode)
    (d : List (List Nat × Bencode))
    (hgt : ∀ p ∈ d, lexLt p.1 k = true) :
    btInsert k v d = d ++ [(k, v)] := by
  induction d with
  | nil => rfl
  | cons hd rest ih =>
    obtain ⟨k', v'⟩ := hd
    have hlt : lexLt k' k = true := hgt (k', v') (by simp)
    have h1 : lexLt k k' = false := lexLt_asymm _ _ hlt
    have h2 : k ≠ k' := by
      intro hkk
      rw [hkk] at hlt
      rw [lexLt_irrefl] at hlt
      cases hlt
    unfold btInsert
    rw [h1]
    simp only [Bool.false_eq_true, if_false, if_neg h2]
    rw [ih fun p hp => hgt p (by simp [hp])]
    rfl

/-- The head key of a sorted dictionary is below every later key. -/
theorem keysSorted_head (k : List Nat) (v : Bencode)
    (ps : List (List Nat × Bencode))
    (h : keysSorted ((k, v) :: ps) = true) :
    (∀ p ∈ ps, lexLt k p.1 = true) ∧ keysSorted ps = true := by
  induction ps generalizing k v with
  | nil => exact ⟨by simp, rfl⟩
  | cons hd rest ih =>
    obtain ⟨k2, v2⟩ := hd
    have h' : lexLt k k2 = true ∧ keysSorted ((k2, v2) :: rest) = true := by
      simpa [keysSorted, Bool.and_eq_true] using h
    obtain ⟨hrest, hsorted⟩ := ih k2 v2 h'.2
    refine ⟨?_, h'.2⟩
    intro p hp
    rcases List.mem_cons.1 hp with rfl | hm
    · exact h'.1
    · exact lexLt_trans _ _ _ h'.1 (hrest p hm)

/-- Elements of a well-formed list are well-formed. -/
theorem wfBList_mem (l : List Bencode) (h : wfBList l = true) :
    ∀ v ∈ l, wfB v = true := by
  induction l with
  | nil => intro v hv; cases hv
  | cons x xs ih =>
    intro v hv
    rw [wfBList, Bool.and_eq_true] at h
    rcases List.mem_cons.1 hv with rfl | hm
    · exact h.1
    · exact ih h.2 v hm

/-- Pairs of a well-formed dictionary have bounded keys and well-formed
values. -/
theorem wfBPairs_mem (d : List (List Nat × Bencode))
    (h : wfBPairs d = true) :
    ∀ p ∈ d, p.1.length ≤ 2 ^ 63 - 1 ∧ wfB p.2 = true := by
  induction d with
  | nil => intro p hp; cases hp
  | cons x xs ih =>
    intro p hp
    obtain ⟨k, v⟩ := x
    rw [wfBPairs, Bool.and_eq_true, Bool.and_eq_true] at h
    rcases List.mem_cons.1 hp with rfl | hm
    · exact ⟨by simpa using h.1.1, h.1.2⟩
    · exact ih h.2 p hm

/-- Every encoding starts with `'i'`, `'l'`, `'d'` or a digit — never
`'e'`. -/
theorem do_encode_head (v : Bencode) :
    ∃ c cs, do_encode v = c :: cs ∧
      (c = 105 ∨ c = 108 ∨ c = 100 ∨ (48 ≤ c ∧ c ≤ 57)) := by
  cases v with
  | BNumber n => exact ⟨105, _, rfl, Or.inl rfl⟩
  | BString s =>
    obtain ⟨d, ds, hds, hall⟩ := natToDigits_spec s.length
    have hd := hall d (by rw [hds]; simp)
    refine ⟨d, ds ++ 58 :: s, ?_, Or.inr (Or.inr (Or.inr hd))⟩
    show encode_string s = d :: (ds ++ 58 :: s)
    unfold encode_string
    rw [hds]
    rfl
  | BList l => exact ⟨108, _, rfl, Or.inr (Or.inl rfl)⟩
  | BDict d => exact ⟨100, _, rfl, Or.inr (Or.inr (Or.inl rfl))⟩

/-- Unfolding equation of `do_decode` with fuel left on a nonempty
input. -/
theorem do_decode_succ (fuel : Nat) (c : Nat) (tail : List Nat) :
    do_decode (fuel + 1) (c :: tail) =
      if c = 105 then decode_number (c :: tail)
      else if c = 108 then decodeListLoop fuel (c :: tail) 1 []
      else if c = 100 then decodeDictLoop fuel (c :: tail) 1 []
      else if 48 ≤ c ∧ c ≤ 57 then decode_string (c :: tail)
      else DRes.err BencodeError.InvalidBencode := by
  rw [do_decode]
  rfl

/-! ## Claim C6: decoder failure modes -/

/-- C6 (counterexample): decoding the 1-byte input `"4"` — a digit run
with no `':'` separator — panics (out-of-bounds index in the
`while data[i] != b':'` scan) instead of returning an error, so decoding
is not total. -/
theorem C6_cex_decode_panics_on_truncated_input :
    decode [52] = DRes.panic := rfl

/-- C6 (amended): decoding returns a value on well-formed input and
distinct error kinds for well-delimited malformed input — empty input and
an unrecognized leading byte give `InvalidBencode`, a malformed number
`InvalidBencodeNumber`, a malformed string length `InvalidBencodeString`,
a non-string dictionary key `InvalidBencodeDict` (a malformed list
surfaces as the error of its first bad element) — but it is *not* total:
every nonempty digit run with no `':'` separator panics (out-of-bounds
index in the colon scan), as do a string length exceeding the remaining
input (`"4:ab"`), an unterminated integer (`"i12"`) and an unterminated
list (`"l4:spam"`). -/
theorem C6_amended_decode_error_kinds_and_panics :
    decode [105, 51, 101] = DRes.ok (Bencode.BNumber 3) ∧
    decode [52, 58, 115, 112, 97, 109] =
      DRes.ok (Bencode.BString [115, 112, 97, 109]) ∧
    decode [] = DRes.err BencodeError.InvalidBencode ∧
    decode [120, 121, 122] = DRes.err BencodeError.InvalidBencode ∧
    decode [105, 97, 101] = DRes.err BencodeError.InvalidBencodeNumber ∧
    decode [49, 120, 58, 97] = DRes.err BencodeError.InvalidBencodeString ∧
    decode [100, 105, 49, 101, 105, 50, 101, 101] =
      DRes.err BencodeError.InvalidBencodeDict ∧
    decode [108, 120, 101] = DRes.err BencodeError.InvalidBencode ∧
    decode [52, 58, 97, 98] = DRes.panic ∧
    decode [105, 49, 50] = DRes.panic ∧
    decode [108, 52, 58, 115, 112, 97, 109] = DRes.panic ∧
    (∀ l : List Nat, l ≠ [] → (∀ c ∈ l, 48 ≤ c ∧ c ≤ 57) →
      decode l = DRes.panic) := by
  refine ⟨rfl, rfl, rfl, rfl, rfl, rfl, rfl, rfl, rfl, rfl, rfl, ?_⟩
  intro l hne hdig
  cases l with
  | nil => cases hne rfl
  | cons c tail =>
    have hd := hdig c (by simp)
    unfold decode
    rw [show 2 * (c :: tail).length + 2 = (2 * (c :: tail).length + 1) + 1
      from rfl]
    rw [do_decode_succ, if_neg (by omega), if_neg (by omega),
      if_neg (by omega), if_pos hd]
    have hscan : scanIdx 58 (c :: tail) = none := by
      apply scanIdx_eq_none
      intro hmem
      have := hdig 58 hmem
      omega
    unfold decode_string
    rw [hscan]

/-- C6 (witness): the digit-run conjunct applied to the input `"5"`. -/
theorem C6_amended_witness : decode [53] = DRes.panic :=
  C6_amended_decode_error_kinds_and_panics.2.2.2.2.2.2.2.2.2.2.2 [53]
    (by decide) (by decide)

/-! ## Claim C7: codec round-trip -/

/-- Reading at the length of the prefix yields the first element after
it. -/
theorem getIdx_append_cons {α : Type} (pre t : List α) (x : α) :
    (pre ++ x :: t)[pre.length]? = some x := by
  rw [List.getElem?_append_right (le_refl _)]
  simp

/-- `do_decode` on a byte-string encoding parses it (dispatch through the
digit head into `decode_string`). -/
theorem do_decode_enc_string (k : List Nat) (rest : List Nat)
    (hk : k.length ≤ 2 ^ 63 - 1) (fuel : Nat) :
    do_decode (fuel + 1) (encode_string k ++ rest) =
      DRes.ok (Bencode.BString k, (encode_string k).length) := by
  obtain ⟨d, ds, hds, hall⟩ := natToDigits_spec k.length
  have hd := hall d (by rw [hds]; simp)
  have hshape : encode_string k ++ rest = d :: (ds ++ 58 :: (k ++ rest)) := by
    unfold encode_string
    rw [hds]
    simp
  have hshape2 : natToDigits k.length ++ 58 :: (k ++ rest) =
      d :: (ds ++ 58 :: (k ++ rest)) := by
    rw [hds]
    simp
  have hlen : (encode_string k).length =
      (natToDigits k.length).length + 1 + k.length := by
    unfold encode_string
    simp
    omega
  rw [hshape, do_decode_succ, if_neg (by omega), if_neg (by omega),
    if_neg (by omega), if_pos hd, ← hshape2,
    decode_string_encode k rest hk, hlen]

/-- The list loop consumes the encodings of the remaining elements up to
the closing `'e'`, appending them to the accumulator. -/
theorem decodeListLoop_spec (l : List Bencode)
    (IH : ∀ v ∈ l, ∀ (fuel : Nat) (rest : List Nat),
      2 * (do_encode v).length + 2 ≤ fuel →
      do_decode fuel (do_encode v ++ rest) =
        DRes.ok (v, (do_encode v).length)) :
    ∀ (fuel : Nat) (pre post : List Nat) (acc : List Bencode),
      2 * (encList l).length + 3 ≤ fuel →
      decodeListLoop fuel (pre ++ (encList l ++ 101 :: post)) pre.length acc =
        DRes.ok (Bencode.BList (acc ++ l),
          pre.length + (encList l).length + 1) := by
  induction l with
  | nil =>
    intro fuel pre post acc hfuel
    obtain ⟨f, rfl⟩ : ∃ f, fuel = f + 1 := ⟨fuel - 1, by omega⟩
    rw [decodeListLoop]
    have hget : (pre ++ (encList [] ++ 101 :: post))[pre.length]? =
        some 101 := by
      show (pre ++ 101 :: post)[pre.length]? = some 101
      exact getIdx_append_cons pre post 101
    rw [hget]
    simp [encList]
  | cons v vs ih =>
    intro fuel pre post acc hfuel
    have hlenc : encList (v :: vs) = do_encode v ++ encList vs := rfl
    rw [hlenc] at hfuel
    simp only [List.length_append] at hfuel
    obtain ⟨c, cs, hvcs, hcases⟩ := do_encode_head v
    have hlenv : 1 ≤ (do_encode v).length := by
      rw [hvcs]; simp
    obtain ⟨f, rfl⟩ : ∃ f, fuel = f + 1 := ⟨fuel - 1, by omega⟩
    have hdata : pre ++ (encList (v :: vs) ++ 101 :: post) =
        pre ++ c :: (cs ++ (encList vs ++ 101 :: post)) := by
      rw [hlenc, hvcs]
      simp
    have hget : (pre ++ (encList (v :: vs) ++ 101 :: post))[pre.length]? =
        some c := by
      rw [hdata]
      exact getIdx_append_cons _ _ _
    have hc101 : ¬ (c = 101) := by
      rcases hcases with rfl | rfl | rfl | hd <;> omega
    have hdrop : (pre ++ (encList (v :: vs) ++ 101 :: post)).drop
        pre.length = do_encode v ++ (encList vs ++ 101 :: post) := by
      rw [show pre ++ (encList (v :: vs) ++ 101 :: post) =
        pre ++ (do_encode v ++ (encList vs ++ 101 :: post)) by
          rw [hlenc]; simp]
      exact List.drop_left _ _
    have hdec : do_decode f (do_encode v ++ (encList vs ++ 101 :: post)) =
        DRes.ok (v, (do_encode v).length) :=
      IH v (by simp) f _ (by omega)
    rw [decodeListLoop, hget]
    try dsimp only
    rw [if_neg hc101, hdrop, hdec]
    try dsimp only
    have hrec := ih (fun w hw => IH w (by simp [hw])) f
      (pre ++ do_encode v) post (acc ++ [v]) (by omega)
    rw [show (pre ++ do_encode v) ++ (encList vs ++ 101 :: post) =
      pre ++ (encList (v :: vs) ++ 101 :: post) by rw [hlenc]; simp,
      List.length_append] at hrec
    rw [hrec]
    have hl1 : (acc ++ [v]) ++ vs = acc ++ v :: vs := by simp
    have hl2 : pre.length + (do_encode v).length + (encList vs).length + 1 =
        pre.length + (encList (v :: vs)).length + 1 := by
      rw [hlenc]
      simp
      omega
    rw [hl1]
    rw [show pre.length + (do_encode v).length + (encList vs).length =
      pre.length + (encList (v :: vs)).length by rw [hlenc]; simp; omega]

/-- Length of a byte-string encoding. -/
theorem encode_string_len (k : List Nat) :
    (encode_string k).length = (natToDigits k.length).length + 1 + k.length
      ∧ 2 ≤ (encode_string k).length := by
  obtain ⟨dd, ds, hds, _⟩ := natToDigits_spec k.length
  constructor
  · unfold encode_string
    simp
    omega
  · unfold encode_string
    rw [hds]
    simp
    omega

/-- The dictionary loop consumes the key-value encodings up to the closing
`'e'`; since the keys arrive in strictly increasing order, each `BTreeMap`
insertion appends, reconstructing the pair list. -/
theorem decodeDictLoop_spec (d : List (List Nat × Bencode))
    (IH : ∀ p ∈ d, ∀ (fuel : Nat) (rest : List Nat),
      2 * (do_encode p.2).length + 2 ≤ fuel →
      do_decode fuel (do_encode p.2 ++ rest) =
        DRes.ok (p.2, (do_encode p.2).length))
    (hwf : wfBPairs d = true) (hsort : keysSorted d = true) :
    ∀ (fuel : Nat) (pre post : List Nat)
      (acc : List (List Nat × Bencode)),
      (∀ p ∈ acc, ∀ q ∈ d, lexLt p.1 q.1 = true) →
      2 * (encPairs d).length + 3 ≤ fuel →
      decodeDictLoop fuel (pre ++ (encPairs d ++ 101 :: post)) pre.length
          acc =
        DRes.ok (Bencode.BDict (acc ++ d),
          pre.length + (encPairs d).length + 1) := by
  induction d with
  | nil =>
    intro fuel pre post acc hacc hfuel
    obtain ⟨f, rfl⟩ : ∃ f, fuel = f + 1 := ⟨fuel - 1, by omega⟩
    rw [decodeDictLoop]
    have hget : (pre ++ (encPairs [] ++ 101 :: post))[pre.length]? =
        some 101 := by
      show (pre ++ 101 :: post)[pre.length]? = some 101
      exact getIdx_append_cons pre post 101
    rw [hget]
    simp [encPairs]
  | cons kv ps ih =>
    intro fuel pre post acc hacc hfuel
    obtain ⟨k, v⟩ := kv
    have hpairs : encPairs ((k, v) :: ps) =
        encode_string k ++ (do_encode v ++ encPairs ps) := by
      show encode_string k ++ do_encode v ++ encPairs ps = _
      simp
    have hwf' : k.length ≤ 2 ^ 63 - 1 ∧ wfB v = true ∧
        wfBPairs ps = true := by
      rw [wfBPairs, Bool.and_eq_true, Bool.and_eq_true] at hwf
      exact ⟨by simpa using hwf.1.1, hwf.1.2, hwf.2⟩
    obtain ⟨hk, hwv, hwps⟩ := hwf'
    obtain ⟨hk_lt, hsps⟩ := keysSorted_head k v ps hsort
    obtain ⟨hsl, hsl2⟩ := encode_string_len k
    have hv1 : 1 ≤ (do_encode v).length := by
      obtain ⟨c, cs, hvcs, _⟩ := do_encode_head v
      rw [hvcs]; simp
    rw [hpairs] at hfuel
    simp only [List.length_append] at hfuel
    obtain ⟨f2, rfl⟩ : ∃ f2, fuel = f2 + 2 := ⟨fuel - 2, by omega⟩
    -- the head byte of the key encoding is a digit
    obtain ⟨dd, dds, hdds, hdall⟩ := natToDigits_spec k.length
    have hd := hdall dd (by rw [hdds]; simp)
    have hshape : pre ++ (encPairs ((k, v) :: ps) ++ 101 :: post) =
        pre ++ dd :: (dds ++ 58 ::
          (k ++ (do_encode v ++ (encPairs ps ++ 101 :: post)))) := by
      rw [hpairs]
      unfold encode_string
      rw [hdds]
      simp
    have hget : (pre ++ (encPairs ((k, v) :: ps) ++ 101 :: post))[
        pre.length]? = some dd := by
      rw [hshape]
      exact getIdx_append_cons _ _ _
    have hd101 : ¬ (dd = 101) := by omega
    have hdrop : (pre ++ (encPairs ((k, v) :: ps) ++ 101 :: post)).drop
        pre.length =
        encode_string k ++ (do_encode v ++ (encPairs ps ++ 101 :: post)) := by
      rw [show pre ++ (encPairs ((k, v) :: ps) ++ 101 :: post) =
        pre ++ (encode_string k ++ (do_encode v ++
          (encPairs ps ++ 101 :: post))) by rw [hpairs]; simp]
      exact List.drop_left _ _
    have hkey : do_decode (f2 + 1)
        (encode_string k ++ (do_encode v ++ (encPairs ps ++ 101 :: post))) =
        DRes.ok (Bencode.BString k, (encode_string k).length) :=
      do_decode_enc_string k _ hk f2
    have hdrop2 : (pre ++ (encPairs ((k, v) :: ps) ++ 101 :: post)).drop
        (pre.length + (encode_string k).length) =
        do_encode v ++ (encPairs ps ++ 101 :: post) := by
      rw [show pre ++ (encPairs ((k, v) :: ps) ++ 101 :: post) =
        (pre ++ encode_string k) ++ (do_encode v ++
          (encPairs ps ++ 101 :: post)) by rw [hpairs]; simp]
      rw [← List.length_append, List.drop_left]
    have IHv := IH (k, v) (by simp)
    dsimp only at IHv
    have hval : do_decode (f2 + 1)
        (do_encode v ++ (encPairs ps ++ 101 :: post)) =
        DRes.ok (v, (do_encode v).length) :=
      IHv (f2 + 1) _ (by omega)
    have hbt : btInsert k v acc = acc ++ [(k, v)] :=
      btInsert_append k v acc fun p hp => hacc p hp (k, v) (by simp)
    rw [decodeDictLoop, hget]
    try dsimp only
    rw [if_neg hd101, hdrop, hkey]
    try dsimp only
    rw [hdrop2, hval]
    try dsimp only
    rw [hbt]
    have hrec := ih (fun p hp => IH p (by simp [hp])) hwps hsps (f2 + 1)
      (pre ++ encode_string k ++ do_encode v) post (acc ++ [(k, v)])
      ?hinv (by omega)
    case hinv =>
      intro p hp q hq
      rcases List.mem_append.1 hp with hpa | hpk
      · exact hacc p hpa q (by simp [hq])
      · have : p = (k, v) := by simpa using hpk
        subst this
        exact hk_lt q hq
    rw [show (pre ++ encode_string k ++ do_encode v) ++
      (encPairs ps ++ 101 :: post) =
      pre ++ (encPairs ((k, v) :: ps) ++ 101 :: post) by
        rw [hpairs]; simp] at hrec
    simp only [List.length_append] at hrec
    rw [hrec]
    have hl1 : (acc ++ [(k, v)]) ++ ps = acc ++ (k, v) :: ps := by simp
    rw [hl1]
    rw [show pre.length + (encode_string k).length + (do_encode v).length +
      (encPairs ps).length =
      pre.length + (encPairs ((k, v) :: ps)).length by
        rw [hpairs]; simp; omega]

/-- Round-trip at the `do_decode` level: decoding an encoding (followed by
any trailing bytes) returns the value and consumes exactly the
encoding. -/
theorem do_decode_do_encode : ∀ (n : Nat) (v : Bencode), sizeOf v ≤ n →
    wfB v = true →
    ∀ (fuel : Nat) (rest : List Nat),
      2 * (do_encode v).length + 2 ≤ fuel →
      do_decode fuel (do_encode v ++ rest) =
        DRes.ok (v, (do_encode v).length) := by
  intro n
  induction n with
  | zero =>
    intro v hv
    exfalso
    cases v <;> simp at hv
  | succ n ihn =>
    intro v hv hwf fuel rest hfuel
    obtain ⟨f, rfl⟩ : ∃ f, fuel = f + 1 := ⟨fuel - 1, by omega⟩
    cases v with
    | BNumber num =>
      have hrange : -(2 ^ 63 : Int) ≤ num ∧ num ≤ 2 ^ 63 - 1 := by
        rw [wfB, Bool.and_eq_true] at hwf
        exact ⟨of_decide_eq_true hwf.1, of_decide_eq_true hwf.2⟩
      have henc : do_encode (Bencode.BNumber num) = encode_number num := by
        rw [do_encode]
      have hshape : do_encode (Bencode.BNumber num) ++ rest =
          105 :: (intDecBytes num ++ 101 :: rest) := by
        rw [henc]
        unfold encode_number
        simp
      have hlen : (do_encode (Bencode.BNumber num)).length =
          (intDecBytes num).length + 2 := by
        rw [henc]
        unfold encode_number
        simp
      rw [hshape, do_decode_succ, if_pos rfl, hlen,
        decode_number_encode num rest hrange.1 hrange.2]
    | BString s =>
      have hs : s.length ≤ 2 ^ 63 - 1 := by
        rw [wfB] at hwf
        exact of_decide_eq_true hwf
      have henc : do_encode (Bencode.BString s) = encode_string s := by
        rw [do_encode]
      rw [henc]
      exact do_decode_enc_string s rest hs f
    | BList l =>
      have hwl : wfBList l = true := by rwa [wfB] at hwf
      have henc : do_encode (Bencode.BList l) = 108 :: encList l ++ [101] := by
        rw [do_encode]
      have hlen : (do_encode (Bencode.BList l)).length =
          (encList l).length + 2 := by
        rw [henc]
        simp
      have helem : ∀ w ∈ l, ∀ (fuel : Nat) (rest2 : List Nat),
          2 * (do_encode w).length + 2 ≤ fuel →
          do_decode fuel (do_encode w ++ rest2) =
            DRes.ok (w, (do_encode w).length) := by
        intro w hw
        have h1 : sizeOf w < sizeOf l := List.sizeOf_lt_of_mem hw
        have h2 : sizeOf (Bencode.BList l) = 1 + sizeOf l := by
          simp
        exact ihn w (by omega) (wfBList_mem l hwl w hw)
      have hshape : do_encode (Bencode.BList l) ++ rest =
          108 :: (encList l ++ 101 :: rest) := by
        rw [henc]
        simp
      have hrec := decodeListLoop_spec l helem f [108] rest []
        (by rw [hlen] at hfuel; omega)
      rw [hshape, do_decode_succ, if_neg (by omega), if_pos rfl]
      simp only [List.length_singleton] at hrec
      rw [show ([108] ++ (encList l ++ 101 :: rest)) =
        (108 : Nat) :: (encList l ++ 101 :: rest) from rfl] at hrec
      rw [hrec, hlen]
      simp only [List.nil_append]
      rw [show 1 + (encList l).length + 1 = (encList l).length + 2 by omega]
    | BDict dict =>
      have hws : keysSorted dict = true ∧ wfBPairs dict = true := by
        rw [wfB, Bool.and_eq_true] at hwf
        exact hwf
      have henc : do_encode (Bencode.BDict dict) =
          100 :: encPairs dict ++ [101] := by
        rw [do_encode]
      have hlen : (do_encode (Bencode.BDict dict)).length =
          (encPairs dict).length + 2 := by
        rw [henc]
        simp
      have helem : ∀ p ∈ dict, ∀ (fuel : Nat) (rest2 : List Nat),
          2 * (do_encode p.2).length + 2 ≤ fuel →
          do_decode fuel (do_encode p.2 ++ rest2) =
            DRes.ok (p.2, (do_encode p.2).length) := by
        intro p hp
        have h1 : sizeOf p < sizeOf dict := List.sizeOf_lt_of_mem hp
        have h2 : sizeOf p.2 < sizeOf p := by
          obtain ⟨a, b⟩ := p
          simp only [Prod.mk.sizeOf_spec]
          omega
        have h3 : sizeOf (Bencode.BDict dict) = 1 + sizeOf dict := by
          simp
        exact ihn p.2 (by omega) (wfBPairs_mem dict hws.2 p hp).2
      have hshape : do_encode (Bencode.BDict dict) ++ rest =
          100 :: (encPairs dict ++ 101 :: rest) := by
        rw [henc]
        simp
      have hrec := decodeDictLoop_spec dict helem hws.2 hws.1 f [100] rest []
        (fun p hp => absurd hp (List.not_mem_nil p))
        (by rw [hlen] at hfuel; omega)
      rw [hshape, do_decode_succ, if_neg (by omega), if_neg (by omega),
        if_pos rfl]
      simp only [List.length_singleton] at hrec
      rw [show ([100] ++ (encPairs dict ++ 101 :: rest)) =
        (100 : Nat) :: (encPairs dict ++ 101 :: rest) from rfl] at hrec
      rw [hrec, hlen]
      simp only [List.nil_append]
      rw [show 1 + (encPairs dict).length + 1 =
        (encPairs dict).length + 2 by omega]

/-- C7: for every value producible by the codec (integers in the `i64`
range, `Vec`-bounded string lengths, sorted dictionaries — the `wfB`
invariants of the Rust types), `decode (encode v) = v`; and the keys of
every encoded dictionary are emitted in strictly increasing byte-wise
order (the sortedness carried by the `BTreeMap` it encodes from). -/
theorem C7_codec_roundtrip :
    ∀ v : Bencode, wfB v = true →
      decode (do_encode v) = DRes.ok v ∧
      (∀ d, v = Bencode.BDict d → keysSorted d = true) := by
  intro v hwf
  constructor
  · unfold decode
    have h := do_decode_do_encode (sizeOf v) v (le_refl _) hwf
      (2 * (do_encode v).length + 2) [] (le_refl _)
    rw [List.append_nil] at h
    rw [h]
  · rintro d rfl
    rw [wfB, Bool.and_eq_true] at hwf
    exact hwf.1

/-- C7 (witness): the round-trip at the concrete nested dictionary
`c7Value`. -/
theorem C7_witness :
    decode (do_encode c7Value) = DRes.ok c7Value ∧
      (∀ d, c7Value = Bencode.BDict d → keysSorted d = true) :=
  C7_codec_roundtrip c7Value (by rfl)

/-! ## Claim C10: swarm accounting -/

/-- The leecher count of a cons. -/
theorem leechersCount_cons (a : List Nat × TrackerPeer)
    (l : List (List Nat × TrackerPeer)) :
    leechersCount (a :: l) =
      (if isLeecher a.2 then 1 else 0) + leechersCount l := by
  by_cases h : isLeecher a.2
  · simp [leechersCount, List.filter, h]
    omega
  · simp [leechersCount, List.filter, h]

/-- The seeder count of a cons. -/
theorem seedersCount_cons (a : List Nat × TrackerPeer)
    (l : List (List Nat × TrackerPeer)) :
    seedersCount (a :: l) =
      (if isLeecher a.2 then 0 else 1) + seedersCount l := by
  by_cases h : isLeecher a.2
  · simp [seedersCount, List.filter, h]
  · simp [seedersCount, List.filter, h]
    omega

/-- Every stored peer is a seeder or a leecher, so the two counts
partition the table. -/
theorem counts_partition (l : List (List Nat × TrackerPeer)) :
    seedersCount l + leechersCount l = l.length := by
  induction l with
  | nil => rfl
  | cons a rest ih =>
    rw [seedersCount_cons, leechersCount_cons, List.length_cons]
    by_cases h : isLeecher a.2 <;> simp [h] <;> omega

/-- A found key occurs in the table (`any` is true). -/
theorem swarmLookup_some_any (id : List Nat)
    (l : List (List Nat × TrackerPeer)) (old : TrackerPeer)
    (h : swarmLookup id l = some old) :
    (l.any fun q => q.1 = id) = true := by
  induction l with
  | nil => cases h
  | cons a rest ih =>
    by_cases ha : a.1 = id
    · simp [List.any_cons, ha]
    · have hd : (decide (a.1 = id)) = false := decide_eq_false ha
      simp only [swarmLookup, List.find?, hd] at h
      simp only [List.any_cons, hd, Bool.false_or]
      exact ih h

/-- A missing key occurs nowhere in the table. -/
theorem swarmLookup_none_any (id : List Nat)
    (l : List (List Nat × TrackerPeer)) (h : swarmLookup id l = none) :
    (l.any fun q => q.1 = id) = false := by
  induction l with
  | nil => rfl
  | cons a rest ih =>
    by_cases ha : a.1 = id
    · exfalso; simp [swarmLookup, List.find?, ha] at h
    · have hd : (decide (a.1 = id)) = false := decide_eq_false ha
      simp only [swarmLookup, List.find?, hd] at h
      simp only [List.any_cons, hd, Bool.false_or]
      exact ih h

/-- A missing key is not among the stored keys. -/
theorem swarmLookup_none_not_mem (id : List Nat)
    (l : List (List Nat × TrackerPeer)) (h : swarmLookup id l = none) :
    id ∉ l.map Prod.fst := by
  intro hmem
  rcases List.mem_map.1 hmem with ⟨q, hq, hid⟩
  have := swarmLookup_none_any id l h
  rw [List.any_eq_false] at this
  exact absurd (by simpa using hid) (by simpa using this q hq)

/-- The record found by a lookup is stored under its key. -/
theorem swarmLookup_mem (id : List Nat)
    (l : List (List Nat × TrackerPeer)) (old : TrackerPeer)
    (h : swarmLookup id l = some old) : (id, old) ∈ l := by
  induction l with
  | nil => cases h
  | cons a rest ih =>
    obtain ⟨a1, a2⟩ := a
    by_cases ha : a1 = id
    · subst ha
      have hd : (decide (a1 = a1)) = true := by simp
      simp only [swarmLookup, List.find?, hd, Option.map_some'] at h
      cases h
      exact List.mem_cons_self _ _
    · have hd : (decide (a1 = id)) = false := decide_eq_false ha
      simp only [swarmLookup, List.find?, hd] at h
      exact List.mem_cons_of_mem _ (ih h)

/-- Inserting a fresh key appends the record. -/
theorem swarmInsert_absent (id : List Nat) (p : TrackerPeer)
    (l : List (List Nat × TrackerPeer)) (h : swarmLookup id l = none) :
    swarmInsert id p l = l ++ [(id, p)] := by
  unfold swarmInsert
  rw [swarmLookup_none_any id l h]
  simp

/-- Replacing a key that occurs nowhere is the identity. -/
theorem map_update_of_not_mem (id : List Nat) (p : TrackerPeer)
    (l : List (List Nat × TrackerPeer)) (h : id ∉ l.map Prod.fst) :
    (l.map fun q => if q.1 = id then (id, p) else q) = l := by
  induction l with
  | nil => rfl
  | cons a rest ih =>
    simp only [List.map_cons, List.mem_cons] at h ⊢
    have ha : a.1 ≠ id := fun hc => h (Or.inl hc.symm)
    rw [if_neg ha, ih fun hc => h (Or.inr hc)]

/-- Replacing a present key (unique, by the `HashMap` key invariant)
preserves the key sequence and moves each class count by the difference
between the old and the new record's class. -/
theorem swarmInsert_present (id : List Nat) (p old : TrackerPeer)
    (l : List (List Nat × TrackerPeer))
    (hnd : (l.map Prod.fst).Nodup) (h : swarmLookup id l = some old) :
    (swarmInsert id p l).map Prod.fst = l.map Prod.fst ∧
    leechersCount (swarmInsert id p l) + (if isLeecher old then 1 else 0) =
      leechersCount l + (if isLeecher p then 1 else 0) ∧
    seedersCount (swarmInsert id p l) + (if isLeecher old then 0 else 1) =
      seedersCount l + (if isLeecher p then 0 else 1) := by
  induction l with
  | nil => cases h
  | cons a rest ih =>
    have hany : ((a :: rest).any fun q => q.1 = id) = true :=
      swarmLookup_some_any id _ old h
    by_cases ha : a.1 = id
    · have hid : id ∉ rest.map Prod.fst := by
        rw [List.map_cons, List.nodup_cons] at hnd
        rw [← ha]; exact hnd.1
      have hold : old = a.2 := by
        have hd : (decide (a.1 = id)) = true := decide_eq_true ha
        simp only [swarmLookup, List.find?, hd] at h
        cases h; rfl
      have hrest : (rest.map fun q => if q.1 = id then (id, p) else q) =
          rest := map_update_of_not_mem id p rest hid
      unfold swarmInsert
      rw [hany]
      simp only [if_true, List.map_cons, if_pos ha, hrest]
      refine ⟨by simp [← ha], ?_, ?_⟩
      · rw [leechersCount_cons, leechersCount_cons, hold]
        by_cases hl : isLeecher p <;> by_cases ho : isLeecher a.2 <;>
          simp [hl, ho] <;> omega
      · rw [seedersCount_cons, seedersCount_cons, hold]
        by_cases hl : isLeecher p <;> by_cases ho : isLeecher a.2 <;>
          simp [hl, ho] <;> omega
    · have hd : (decide (a.1 = id)) = false := decide_eq_false ha
      have hrest : swarmLookup id rest = some old := by
        simpa only [swarmLookup, List.find?, hd] using h
      have hnd' : (rest.map Prod.fst).Nodup := by
        rw [List.map_cons, List.nodup_cons] at hnd
        exact hnd.2
      obtain ⟨ih1, ih2, ih3⟩ := ih hnd' hrest
      have hins : swarmInsert id p (a :: rest) =
          a :: swarmInsert id p rest := by
        unfold swarmInsert
        rw [hany]
        have hanyr : (rest.any fun q => q.1 = id) = true :=
          swarmLookup_some_any id rest old hrest
        rw [hanyr]
        simp [if_neg ha]
      rw [hins]
      refine ⟨by simp [List.map_cons, ih1], ?_, ?_⟩
      · rw [leechersCount_cons, leechersCount_cons]
        omega
      · rw [seedersCount_cons, seedersCount_cons]
        omega

/-- The `retain` loop removes exactly the expired entries and lowers each
counter by the number of removed entries of its class. -/
theorem retainActive_spec (expired : List Nat → TrackerPeer → Bool) :
    ∀ (l : List (List Nat × TrackerPeer)) (a b : Nat),
      retainActive expired l (seedersCount l + a) (leechersCount l + b) =
        (l.filter fun q => !expired q.1 q.2,
         seedersCount (l.filter fun q => !expired q.1 q.2) + a,
         leechersCount (l.filter fun q => !expired q.1 q.2) + b) := by
  intro l
  induction l with
  | nil => intro a b; simp [retainActive, seedersCount, leechersCount]
  | cons hd rest ih =>
    intro a b
    obtain ⟨id, q⟩ := hd
    cases hexp : expired id q with
    | true =>
      have hfil : ((id, q) :: rest).filter (fun p => !expired p.1 p.2) =
          rest.filter fun p => !expired p.1 p.2 := by
        simp [List.filter, hexp]
      cases hl : isLeecher q with
      | true =>
        have harg : leechersCount ((id, q) :: rest) + b - 1 =
            leechersCount rest + b := by
          rw [leechersCount_cons]
          simp only [hl, if_true]
          omega
        have harg2 : seedersCount ((id, q) :: rest) + a =
            seedersCount rest + a := by
          rw [seedersCount_cons]
          simp only [hl, if_true]
          omega
        simp only [retainActive, hexp, if_true, hl]
        rw [harg, harg2, ih a b, hfil]
      | false =>
        have harg : seedersCount ((id, q) :: rest) + a - 1 =
            seedersCount rest + a := by
          rw [seedersCount_cons]
          simp only [hl, Bool.false_eq_true, if_false]
          omega
        have harg2 : leechersCount ((id, q) :: rest) + b =
            leechersCount rest + b := by
          rw [leechersCount_cons]
          simp only [hl, Bool.false_eq_true, if_false]
          omega
        simp only [retainActive, hexp, if_true, hl, Bool.false_eq_true,
          if_false]
        rw [harg, harg2, ih a b, hfil]
    | false =>
      have harg : seedersCount ((id, q) :: rest) + a =
          seedersCount rest + ((if isLeecher q then 0 else 1) + a) := by
        rw [seedersCount_cons]; dsimp only; omega
      have harg2 : leechersCount ((id, q) :: rest) + b =
          leechersCount rest + ((if isLeecher q then 1 else 0) + b) := by
        rw [leechersCount_cons]; dsimp only; omega
      have hfil : ((id, q) :: rest).filter (fun p => !expired p.1 p.2) =
          (id, q) :: (rest.filter fun p => !expired p.1 p.2) := by
        simp [List.filter, hexp]
      simp only [retainActive, hexp, Bool.false_eq_true, if_false]
      rw [harg, harg2, ih, hfil, seedersCount_cons, leechersCount_cons]
      simp only [Prod.mk.injEq]
      dsimp only
      refine ⟨?_, ?_, ?_⟩ <;> first | trivial | rfl | omega

/-- Characterization of `announce` on a present key: the table is the
replacement table, and each counter moves by the difference of the old and
new record's class (the old record's class count being positive by the
invariant). -/
theorem announce_present_spec (s : Swarm) (p old : TrackerPeer)
    (hinv : SwarmInv s) (hl : swarmLookup p.id s.peers = some old) :
    (announce p s).peers = swarmInsert p.id p s.peers ∧
    (announce p s).leechers + (if isLeecher old then 1 else 0) =
      s.leechers + (if isLeecher p then 1 else 0) ∧
    (announce p s).seeders + (if isLeecher old then 0 else 1) =
      s.seeders + (if isLeecher p then 0 else 1) := by
  obtain ⟨hle, hse, hnd⟩ := hinv
  have hmem : (p.id, old) ∈ s.peers := swarmLookup_mem _ _ _ hl
  have hlpos : isLeecher old = true → 1 ≤ s.leechers := by
    intro ho
    have hm : (p.id, old) ∈ s.peers.filter fun q => isLeecher q.2 :=
      List.mem_filter.2 ⟨hmem, by simpa using ho⟩
    have := List.length_pos_of_mem hm
    unfold leechersCount at hle
    omega
  have hspos : isLeecher old = false → 1 ≤ s.seeders := by
    intro ho
    have hm : (p.id, old) ∈ s.peers.filter fun q => !isLeecher q.2 :=
      List.mem_filter.2 ⟨hmem, by simp [ho]⟩
    have := List.length_pos_of_mem hm
    unfold seedersCount at hse
    omega
  unfold announce
  rw [hl]
  cases hp : isLeecher p <;> cases ho : isLeecher old <;>
    simp only [announceDecOld, hp, ho, Bool.false_eq_true, if_true,
      if_false] <;>
    refine ⟨?_, ?_, ?_⟩ <;> (try dsimp only) <;>
    first
      | trivial
      | rfl
      | (have hA := hlpos ho; omega)
      | (have hA := hspos ho; omega)

/-- Characterization of `announce` on a fresh key: the record is appended
and its class counter incremented. -/
theorem announce_absent_spec (s : Swarm) (p : TrackerPeer)
    (hl : swarmLookup p.id s.peers = none) :
    (announce p s).peers = s.peers ++ [(p.id, p)] ∧
    (announce p s).leechers =
      s.leechers + (if isLeecher p then 1 else 0) ∧
    (announce p s).seeders =
      s.seeders + (if isLeecher p then 0 else 1) := by
  have hins := swarmInsert_absent p.id p s.peers hl
  cases hp : isLeecher p <;>
    simp [announce, announceDecOld, hl, hp, hins]

/-- `announce` preserves the swarm-accounting invariant. -/
theorem SwarmInv_announce (s : Swarm) (p : TrackerPeer)
    (h : SwarmInv s) : SwarmInv (announce p s) := by
  obtain ⟨hle, hse, hnd⟩ := h
  cases hl : swarmLookup p.id s.peers with
  | none =>
    obtain ⟨h1, h2, h3⟩ := announce_absent_spec s p hl
    have hins := swarmInsert_absent p.id p s.peers hl
    have hnotmem := swarmLookup_none_not_mem p.id s.peers hl
    have hndnew : ((s.peers ++ [(p.id, p)]).map Prod.fst).Nodup := by
      simp only [List.map_append, List.map_cons, List.map_nil]
      rw [List.nodup_append]
      refine ⟨hnd, List.nodup_singleton _, ?_⟩
      intro x hx
      simp only [List.mem_singleton]
      intro hxid
      subst hxid
      exact hnotmem hx
    have hlc : leechersCount (s.peers ++ [(p.id, p)]) =
        leechersCount s.peers + (if isLeecher p then 1 else 0) := by
      by_cases hp : isLeecher p <;>
        simp [leechersCount, List.filter_append, List.filter, hp]
    have hsc : seedersCount (s.peers ++ [(p.id, p)]) =
        seedersCount s.peers + (if isLeecher p then 0 else 1) := by
      by_cases hp : isLeecher p <;>
        simp [seedersCount, List.filter_append, List.filter, hp]
    refine ⟨?_, ?_, ?_⟩
    · rw [h1, h2, hlc]; omega
    · rw [h1, h3, hsc]; omega
    · rw [h1]; exact hndnew
  | some old =>
    obtain ⟨h1, h2, h3⟩ :=
      announce_present_spec s p old ⟨hle, hse, hnd⟩ hl
    obtain ⟨hkeys, hlc, hsc⟩ := swarmInsert_present p.id p old s.peers hnd hl
    have hndnew : ((swarmInsert p.id p s.peers).map Prod.fst).Nodup := by
      rw [hkeys]; exact hnd
    refine ⟨?_, ?_, ?_⟩
    · rw [h1]; omega
    · rw [h1]; omega
    · rw [h1]; exact hndnew

/-- `remove_inactive_peers` preserves the swarm-accounting invariant. -/
theorem SwarmInv_removeInactive (s : Swarm)
    (expired : List Nat → TrackerPeer → Bool) (h : SwarmInv s) :
    SwarmInv (removeInactivePeers expired s) := by
  obtain ⟨hle, hse, hnd⟩ := h
  have h0 : s.seeders = seedersCount s.peers + 0 := by omega
  have h1 : s.leechers = leechersCount s.peers + 0 := by omega
  have hret := retainActive_spec expired s.peers 0 0
  unfold removeInactivePeers
  rw [h0, h1, hret]
  have hsub : List.Sublist
      ((s.peers.filter fun q => !expired q.1 q.2).map Prod.fst)
      (s.peers.map Prod.fst) :=
    (List.filter_sublist _).map Prod.fst
  exact ⟨by dsimp only; rfl, by dsimp only; rfl,
    by dsimp only; exact hnd.sublist hsub⟩

/-- Every reachable swarm satisfies the accounting invariant. -/
theorem SwarmInv_run (ops : List SwarmOp) : SwarmInv (swarmRun ops) := by
  have hnew : SwarmInv swarmNew := ⟨rfl, rfl, by simp [swarmNew]⟩
  have : ∀ (l : List SwarmOp) (s : Swarm), SwarmInv s →
      SwarmInv (l.foldl swarmStep s) := by
    intro l
    induction l with
    | nil => intro s hs; exact hs
    | cons op rest ih =>
      intro s hs
      rcases op with p | expired
      · exact ih _ (SwarmInv_announce s p hs)
      · exact ih _ (SwarmInv_removeInactive s expired hs)
  exact this ops swarmNew hnew

/-- C10: after any sequence of `announce` / `remove_inactive_peers` from
`Swarm::new`, each counter equals the number of stored peers of its class
(leecher exactly when `is_leecher` holds, seeder otherwise) and their sum
is the table size; and an `announce` that replaces an existing peer-id
keeps the table size, taking one count from the old record's class and
giving one to the new record's class. -/
theorem C10_swarm_accounting :
    (∀ ops : List SwarmOp,
      (swarmRun ops).leechers = leechersCount (swarmRun ops).peers ∧
      (swarmRun ops).seeders = seedersCount (swarmRun ops).peers ∧
      (swarmRun ops).seeders + (swarmRun ops).leechers =
        (swarmRun ops).peers.length) ∧
    (∀ (s : Swarm) (p : TrackerPeer) (old : TrackerPeer),
      SwarmInv s → swarmLookup p.id s.peers = some old →
      (announce p s).peers.length = s.peers.length ∧
      (announce p s).leechers + (if isLeecher old then 1 else 0) =
        s.leechers + (if isLeecher p then 1 else 0) ∧
      (announce p s).seeders + (if isLeecher old then 0 else 1) =
        s.seeders + (if isLeecher p then 0 else 1)) := by
  constructor
  · intro ops
    obtain ⟨h1, h2, _⟩ := SwarmInv_run ops
    refine ⟨h1, h2, ?_⟩
    rw [h1, h2, counts_partition]
  · intro s p old hinv hl
    obtain ⟨h1, h2, h3⟩ := announce_present_spec s p old hinv hl
    obtain ⟨hle, hse, hnd⟩ := hinv
    obtain ⟨hkeys, _, _⟩ := swarmInsert_present p.id p old s.peers hnd hl
    have hlen : (swarmInsert p.id p s.peers).length = s.peers.length := by
      have := congrArg List.length hkeys
      simpa using this
    exact ⟨by rw [h1, hlen], h2, h3⟩

/-- C10 (witness): replacing a stored leecher record (`left = 5`) by a
seeder record (`left = 0`, no event) under the same peer-id moves the
counters from `(seeders, leechers) = (0, 1)` to `(1, 0)`. -/
theorem C10_witness :
    (announce c10NewPeer ⟨[(List.replicate 20 2, c10OldPeer)], 0, 1⟩).peers.length =
      [(List.replicate 20 2, c10OldPeer)].length ∧
    (announce c10NewPeer ⟨[(List.replicate 20 2, c10OldPeer)], 0, 1⟩).leechers +
        (if isLeecher c10OldPeer then 1 else 0) =
      1 + (if isLeecher c10NewPeer then 1 else 0) ∧
    (announce c10NewPeer ⟨[(List.replicate 20 2, c10OldPeer)], 0, 1⟩).seeders +
        (if isLeecher c10OldPeer then 0 else 1) =
      0 + (if isLeecher c10NewPeer then 0 else 1) :=
  C10_swarm_accounting.2 ⟨[(List.replicate 20 2, c10OldPeer)], 0, 1⟩
    c10NewPeer c10OldPeer ⟨by decide, by decide, by decide⟩ rfl

end LibTorrentRs
